import Mathlib

/-!
Shallow embedding of the segregated-fits memory allocator
(`mm-segregated_fits.c`) and verification of its specification claims.

Modelling conventions:
* A heap is a list of blocks, left to right.  Addresses are payload
  addresses, the first block's payload sitting at address 0 (the C code's
  `first_block`); the address of block `i` is the sum of the total sizes of
  the blocks to its left, matching the `RIGHT`/`LEFT` boundary-tag
  navigation of the source.
* Each block carries its header word (`size`, `used`) and its footer word
  (`fsize`, `fused`) separately, since the code always writes both, plus
  its payload bytes (`data`, of length `size - 16` on well-formed heaps:
  `HEADER_SIZE = FOOTER_SIZE = ADDRESS_SIZE = 8`).
* The 20 segregated free lists hold block addresses; the `prev`/`next`
  link words that the C code threads through free payloads are abstracted
  into these lists (`put_on_front_of_class_list` / `remove_from_free_list`
  manipulate the same doubly-linked structure by address).
* `mem_sbrk` is modelled by a boolean `ok` argument: when `true` the heap
  grows by fresh zeroed bytes at the top, when `false` it fails and the
  heap is unchanged, as the specification requires of the grow primitive.
* `remove_from_free_list` is called by `coalesce` with the class computed
  by `GET_CLASS`, which can be 20 for giant blocks; in C this reads past
  the lookup table (undefined behaviour).  The model makes the
  out-of-range case a no-op; no claim depends on that behaviour.
-/

/-- A heap block: header word (`size`,`used`), footer word (`fsize`,`fused`)
and the payload bytes between them. -/
structure Block where
  size : Nat
  used : Bool
  fsize : Nat
  fused : Bool
  data : List Nat
deriving DecidableEq

/-- `ALIGN(size) = (((size) + (ALIGNMENT-1)) & ~0x7)` with `ALIGNMENT = 8`. -/
def align (s : Nat) : Nat := (s + 7) / 8 * 8

/-- The loop of `GET_CLASS(ind, size)`: `value` starts at 64 and doubles,
`ind` counts up; stops when `value > size` or `ind` reaches `CLASSES = 20`
(`fuel` counts the remaining iterations, `20 - ind`). -/
def getClassAux (size : Nat) : Nat → Nat → Nat → Nat
  | _, ind, 0 => ind
  | value, ind, fuel + 1 =>
    if size < value then ind
    else getClassAux size (value * 2) (ind + 1) fuel

/-- `GET_CLASS`: the class of a block of total size `size`. -/
def getClass (size : Nat) : Nat := getClassAux size 64 0 20

/-- `GET_MAX_DIM(class) = (1 << (class+6)) - 1`. -/
def getMaxDim (c : Nat) : Nat := 2 ^ (c + 6) - 1

/-- Total byte length of a run of blocks. -/
def blockSum (bs : List Block) : Nat := (bs.map Block.size).sum

/-- Locate the block whose payload address is `a` in a left-to-right block
list (address 0 = first block); returns the blocks before it, the block,
and the blocks after it. -/
def locate : List Block → Nat → Option (List Block × Block × List Block)
  | [], _ => none
  | b :: bs, a =>
    if a = 0 then some ([], b, bs)
    else if a < b.size then none
    else
      match locate bs (a - b.size) with
      | some (pre, c, post) => some (b :: pre, c, post)
      | none => none

/-- The allocator state: the blocks of the heap, the 20 segregated free
lists (`lookup_table`, front of list first) and the `end_heap` pointer. -/
structure Heap where
  blocks : List Block
  table : List (List Nat)
  endHeap : Nat
deriving DecidableEq

/-- The block at payload address `a` in a block list. -/
def blockAtL (l : List Block) (a : Nat) : Option Block :=
  (locate l a).map (fun t => t.2.1)

/-- The block at payload address `a`, if `a` is a block address. -/
def blockAt (hp : Heap) (a : Nat) : Option Block := blockAtL hp.blocks a

/-- `GET_SIZE(HEADER(a))` (0 if `a` is not a block address). -/
def sizeAt (hp : Heap) (a : Nat) : Nat := ((blockAt hp a).map Block.size).getD 0

/-- `BIT(HEADER(a))` (false if `a` is not a block address). -/
def usedAt (hp : Heap) (a : Nat) : Bool := ((blockAt hp a).map Block.used).getD false

/-- Footer size field at `a`. -/
def fsizeAt (hp : Heap) (a : Nat) : Nat := ((blockAt hp a).map Block.fsize).getD 0

/-- Footer in-use bit at `a`. -/
def fusedAt (hp : Heap) (a : Nat) : Bool := ((blockAt hp a).map Block.fused).getD false

/-- Whether `a` is a block address of the heap. -/
def existsAt (hp : Heap) (a : Nat) : Bool := (blockAt hp a).isSome

/-- Payload bytes of the block at `a`. -/
def dataAt (hp : Heap) (a : Nat) : List Nat := ((blockAt hp a).map Block.data).getD []

/-- Update the class list at index `c` of a lookup table (no-op when `c`
is out of range). -/
def tableModify : List (List Nat) → Nat → (List Nat → List Nat) → List (List Nat)
  | [], _, _ => []
  | x :: xs, 0, f => f x :: xs
  | x :: xs, c + 1, f => x :: tableModify xs c f

/-- `put_on_front_of_class_list`: no-op for a class outside `[0, 20)`,
otherwise pushes the address on the front of the class list. -/
def put_on_front_of_class_list (hp : Heap) (c : Int) (a : Nat) : Heap :=
  if c < 0 ∨ 20 ≤ c then hp
  else { hp with table := tableModify hp.table c.toNat (fun l => a :: l) }

/-- `remove_from_free_list`: unlinks the block address from the class list
(the C code unlinks via the block's `prev`/`next` words; on a well-formed
list this removes exactly the one occurrence of `a`). -/
def remove_from_free_list (hp : Heap) (c : Nat) (a : Nat) : Heap :=
  { hp with table := tableModify hp.table c (fun l => l.erase a) }

/-- Best-fit scan of `search_free_list` (the `BEST_FIT` build): walk the
list keeping the smallest block of size at least `need`, breaking early on
an exact match. -/
def sflGo (hp : Heap) (need : Nat) : List Nat → Option Nat → Option Nat
  | [], best => best
  | a :: rest, none =>
    if need ≤ sizeAt hp a then
      if sizeAt hp a = need then some a
      else sflGo hp need rest (some a)
    else sflGo hp need rest none
  | a :: rest, some b =>
    if need ≤ sizeAt hp a ∧ sizeAt hp a < sizeAt hp b then
      if sizeAt hp a = need then some a
      else sflGo hp need rest (some a)
    else sflGo hp need rest (some b)

/-- `search_free_list(class, size_req)`. -/
def search_free_list (hp : Heap) (c : Int) (need : Nat) : Option Nat :=
  if c < 0 ∨ 20 ≤ c then none
  else sflGo hp need (hp.table.getD c.toNat []) none

/-- Little-endian byte list (length `n`) of a value, used to lay out a
packed header/footer word as raw memory bytes. -/
def leBytes (n v : Nat) : List Nat := (List.range n).map (fun i => v / 256 ^ i % 256)

/-- The 8 raw bytes of a packed `PACK(size, bit)` word. -/
def packWord (s : Nat) (u : Bool) : List Nat := leBytes 8 (s + (if u then 1 else 0))

/-- All raw bytes of a block: header word, payload, footer word. -/
def rawBytes (b : Block) : List Nat :=
  packWord b.size b.used ++ b.data ++ packWord b.fsize b.fused

/-- The single block obtained by writing a fresh header/footer (with in-use
flag `u`) over a run of adjacent blocks: its payload is the raw bytes of
the run minus the new header and footer positions. -/
def mergeBlocks (bs : List Block) (u : Bool) : Block :=
  let total := blockSum bs
  { size := total, used := u, fsize := total, fused := u,
    data := (((bs.map rawBytes).flatten).drop 8).take (total - 16) }

/-- `split(ptr, newsize)`: unlink the block if it was free, rewrite it as a
used block of `newsize` bytes, create a free right remainder, push the
remainder on the front of its class list, and move `end_heap` to the
remainder if the block was the last one. -/
def split (hp : Heap) (a newsize : Nat) : Heap :=
  match locate hp.blocks a with
  | none => hp
  | some (pre, b, post) =>
    let remaining := b.size - newsize
    let h1 := if b.used then hp else remove_from_free_list hp (getClass b.size) a
    let left : Block :=
      { size := newsize, used := true, fsize := newsize, fused := true,
        data := b.data.take (newsize - 16) }
    let right : Block :=
      { size := remaining, used := false, fsize := remaining, fused := false,
        data := b.data.drop newsize }
    let h2 : Heap :=
      { h1 with blocks := pre ++ left :: right :: post,
                endHeap := if hp.endHeap = a then a + newsize else hp.endHeap }
    put_on_front_of_class_list h2 (getClass remaining) (a + newsize)

/-- Right-coalescing walk of `coalesce`: starting from the block of size
`csz` at address `ia`, consume right neighbours while the current block is
not `end_heap` and the neighbour is free with size above
`GET_MAX_DIM(LIMIT_COALESCE) = 255`.  Returns the consumed
(address, block) pairs, the remaining suffix, and the final iterator
address. -/
def walkRight (eh : Nat) : Nat → Nat → List Block → List (Nat × Block) × List Block × Nat
  | ia, _, [] => ([], [], ia)
  | ia, csz, nb :: rest =>
    if ia = eh then ([], nb :: rest, ia)
    else if nb.used then ([], nb :: rest, ia)
    else if nb.size ≤ 255 then ([], nb :: rest, ia)
    else
      let w := walkRight eh (ia + csz) nb.size rest
      ((ia + csz, nb) :: w.1, w.2.1, w.2.2)

/-- Left-coalescing walk of `coalesce`: `preRev` lists the blocks to the
left of the current block, nearest first; consume left neighbours while the
current block is not the first block (address 0) and the neighbour is free
with size above 255.  Returns the consumed (address, block) pairs (nearest
first), the remaining reversed prefix, and the final (leftmost) address. -/
def walkLeft : Nat → List Block → List (Nat × Block) × List Block × Nat
  | ia, [] => ([], [], ia)
  | ia, lb :: rest =>
    if ia = 0 then ([], lb :: rest, ia)
    else if lb.used then ([], lb :: rest, ia)
    else if lb.size ≤ 255 then ([], lb :: rest, ia)
    else
      let w := walkLeft (ia - lb.size) rest
      ((ia - lb.size, lb) :: w.1, w.2.1, w.2.2)

/-- Fold of `remove_from_free_list` over a list of consumed blocks, each
removed from the list of its own class. -/
def removeAll (hp : Heap) (l : List (Nat × Block)) : Heap :=
  l.foldl (fun h x => remove_from_free_list h (getClass x.2.size) x.1) hp

/-- `coalesce(ptr)`: merge with free neighbours of size above 255 on the
right then on the left, unlink each consumed neighbour, write the merged
header/footer, and move `end_heap` to the surviving block if the final
right iterator was `end_heap`.  Returns the surviving block's address. -/
def coalesce (hp : Heap) (a : Nat) : Nat × Heap :=
  match locate hp.blocks a with
  | none => (a, hp)
  | some (pre, b, post) =>
    let wr := walkRight hp.endHeap a b.size post
    let wl := walkLeft a pre.reverse
    let h1 := removeAll hp (wr.1 ++ wl.1)
    let merged := mergeBlocks (wl.1.reverse.map Prod.snd ++ b :: wr.1.map Prod.snd) false
    (wl.2.2,
     { h1 with blocks := wl.2.1.reverse ++ merged :: wr.2.1,
               endHeap := if hp.endHeap = wr.2.2 then wl.2.2 else hp.endHeap })

/-- Writing `PACK(size, 0)` into header and footer of the block at `a`
(the first two writes of `mm_free`). -/
def markFreeAt (hp : Heap) (a : Nat) : Heap :=
  match locate hp.blocks a with
  | none => hp
  | some (pre, b, post) =>
    { hp with blocks := pre ++ { b with used := false, fsize := b.size, fused := false } :: post }

/-- `mm_free`. -/
def mm_free (hp : Heap) (ptr : Option Nat) : Heap :=
  match ptr with
  | none => hp
  | some a =>
    let h1 := markFreeAt hp a
    let c := getClass (sizeAt hp a)
    if 2 < c then
      let r := coalesce h1 a
      put_on_front_of_class_list r.2 (getClass (sizeAt r.2 r.1)) r.1
    else
      put_on_front_of_class_list h1 c a

/-- The body of the `while (class < CLASSES)` search loop of `mm_malloc`
(`fuel` counts the remaining classes, `20 - c`). -/
def mallocLoopGo (hp : Heap) (need : Nat) : Nat → Nat → Option (Nat × Nat)
  | _, 0 => none
  | c, fuel + 1 =>
    match search_free_list hp (c : Int) need with
    | some a => some (c, a)
    | none => mallocLoopGo hp need (c + 1) fuel

/-- The `while (class < CLASSES)` search loop of `mm_malloc`: returns the
first class at or above `c` whose list yields a candidate, with the
candidate address. -/
def mallocLoop (hp : Heap) (need : Nat) (c : Nat) : Option (Nat × Nat) :=
  mallocLoopGo hp need c (20 - c)

/-- Total size of the heap (the address one past the last block). -/
def heapSize (hp : Heap) : Nat := blockSum hp.blocks

/-- The `mem_sbrk` branch of `mm_malloc`: append a fresh used block of
`newsize` bytes at the top of the heap and move `end_heap` to it. -/
def growHeap (hp : Heap) (newsize : Nat) : Heap :=
  { hp with
    blocks := hp.blocks ++
      [{ size := newsize, used := true, fsize := newsize, fused := true,
         data := List.replicate (newsize - 16) 0 }],
    endHeap := heapSize hp }

/-- `mm_malloc` (`ok` models whether `mem_sbrk` succeeds). -/
def mm_malloc (hp : Heap) (size : Nat) (ok : Bool) : Option Nat × Heap :=
  if size = 0 then (none, hp)
  else
    let newsize := max 32 (align (size + 16))
    match mallocLoop hp newsize (getClass newsize) with
    | some ca =>
      match locate hp.blocks ca.2 with
      | none => (none, hp)
      | some (pre, b, post) =>
        if b.size - newsize ≤ 32 then
          let h1 : Heap :=
            { hp with blocks :=
                pre ++ { b with used := true, fsize := b.size, fused := true } :: post }
          (some ca.2, remove_from_free_list h1 ca.1 ca.2)
        else
          (some ca.2, split hp ca.2 newsize)
    | none =>
      if ok then (some (heapSize hp), growHeap hp newsize) else (none, hp)

/-- The loop of `simulate_right_coalesce`: sum free right neighbours
(stopping at `end_heap` or a used neighbour) until `diff` is reached. -/
def simWalk (eh : Nat) : Nat → Nat → List Block → Nat → Nat → Bool
  | _, _, [], _, _ => false
  | ia, csz, nb :: rest, diff, total =>
    if ia = eh then false
    else if nb.used then false
    else
      if diff ≤ total + nb.size then true
      else simWalk eh (ia + csz) nb.size rest diff (total + nb.size)

/-- `simulate_right_coalesce(ptr, diff)`. -/
def simulate_right_coalesce (hp : Heap) (a diff : Nat) : Bool :=
  match locate hp.blocks a with
  | none => false
  | some (_, b, post) => simWalk hp.endHeap a b.size post diff 0

/-- The absorption loop of `mm_realloc`'s grow-in-place path: like the
right coalescing walk but without the 255-byte threshold, breaking as soon
as the accumulated size reaches `diff`.  Returns the consumed
(address, block) pairs, the remaining suffix, and the address of the last
consumed neighbour (`last`). -/
def absorbWalk (eh : Nat) : Nat → Nat → List Block → Nat → Nat → List (Nat × Block) × List Block × Nat
  | ia, _, [], _, _ => ([], [], ia)
  | ia, csz, nb :: rest, diff, total =>
    if ia = eh then ([], nb :: rest, ia)
    else if nb.used then ([], nb :: rest, ia)
    else
      if diff ≤ total + nb.size then ([(ia + csz, nb)], rest, ia + csz)
      else
        let w := absorbWalk eh (ia + csz) nb.size rest diff (total + nb.size)
        ((ia + csz, nb) :: w.1, w.2.1, w.2.2)

/-- The grow-in-place branch of `mm_realloc`: absorb free right neighbours,
unlink each from its class list, rewrite the block's header/footer to the
merged size with in-use set, and move `end_heap` to the block if the last
consumed neighbour was the last block. -/
def absorbRight (hp : Heap) (a diff : Nat) : Option Nat × Heap :=
  match locate hp.blocks a with
  | none => (some a, hp)
  | some (pre, b, post) =>
    let w := absorbWalk hp.endHeap a b.size post diff 0
    let h1 := removeAll hp w.1
    let merged := mergeBlocks (b :: w.1.map Prod.snd) true
    (some a,
     { h1 with blocks := pre ++ merged :: w.2.1,
               endHeap := if w.2.2 = hp.endHeap then a else hp.endHeap })

/-- `memcpy(dst, src, n)` on payloads: overwrite the first `n` payload
bytes of the block at `dst` with the first `n` payload bytes of the block
at `src`. -/
def memcpyPayload (hp : Heap) (dst src n : Nat) : Heap :=
  match locate hp.blocks dst with
  | none => hp
  | some (pre, b, post) =>
    { hp with blocks :=
        pre ++ { b with data := (dataAt hp src).take n ++ b.data.drop n } :: post }

/-- `mm_realloc`. -/
def mm_realloc (hp : Heap) (ptr : Option Nat) (size : Nat) (ok : Bool) : Option Nat × Heap :=
  match ptr with
  | none => if 0 < size then mm_malloc hp size ok else (none, hp)
  | some p =>
    if size = 0 then (some p, mm_free hp (some p))
    else
      let block_size := sizeAt hp p
      let newsize := max 32 (align (size + 16))
      if newsize = block_size then (some p, hp)
      else if block_size < newsize then
        if simulate_right_coalesce hp p (newsize - block_size) then
          absorbRight hp p (newsize - block_size)
        else
          let r := mm_malloc hp newsize ok
          match r.1 with
          | none => (none, r.2)
          | some q =>
            let h2 := memcpyPayload r.2 q p (block_size - 16)
            (some q, mm_free h2 (some p))
      else
        if block_size - newsize ≤ 32 then (some p, hp)
        else (some p, split hp p newsize)

/-- First loop of `mm_check`: scan adjacent pairs from the first block up
to (excluding) `end_heap`, reporting pairs of adjacent blocks that are
both free with size above 255. -/
def checkAdjacent (eh : Nat) : Nat → List Block → List (Nat × Nat)
  | _, [] => []
  | ia, b :: rest =>
    if ia = eh then []
    else
      match rest with
      | [] => []
      | nb :: _ =>
        (if ¬b.used ∧ 255 < b.size ∧ ¬nb.used ∧ 255 < nb.size
         then [(ia, ia + b.size)] else []) ++
        checkAdjacent eh (ia + b.size) rest

/-- Second loop of `mm_check`: walk the class lists checking that linked
blocks are free; mirrors the source exactly: it breaks out of the whole
loop at the first empty class list, and within a list only the successors
of the head are inspected. -/
def checkLists (hp : Heap) : List (List Nat) → List Nat
  | [] => []
  | [] :: _ => []
  | (_hd :: rest) :: ls => rest.filter (fun a => usedAt hp a) ++ checkLists hp ls

/-- `mm_check`: the two diagnostic scans; mutates nothing (it returns only
the reported violations). -/
def mm_check (hp : Heap) : List (Nat × Nat) × List Nat :=
  (checkAdjacent hp.endHeap 0 hp.blocks, checkLists hp hp.table)

/-- The single minimum-size free block created by `mm_init`. -/
def initBlock : Block :=
  { size := 32, used := false, fsize := 32, fused := false, data := List.replicate 16 0 }

/-- The heap right after a successful `mm_init`. -/
def initHeap : Heap :=
  put_on_front_of_class_list
    { blocks := [initBlock], table := List.replicate 20 [], endHeap := 0 } 0 0

/-- `mm_init` (`ok` models whether the initial `mem_sbrk` succeeds). -/
def mm_init (ok : Bool) : Option Heap := if ok then some initHeap else none

/-- Well-formedness of a single block: minimum size, 8-byte alignment,
header/footer agreement, and payload length matching the size. -/
def wfBlock (b : Block) : Prop :=
  32 ≤ b.size ∧ b.size % 8 = 0 ∧ b.fsize = b.size ∧ b.fused = b.used ∧
  b.data.length = b.size - 16

instance (b : Block) : Decidable (wfBlock b) := by
  unfold wfBlock; infer_instance

/-- Well-formedness of a heap state: 20 class lists, nonempty block run,
well-formed blocks, `end_heap` pointing at the last block, class lists
holding only addresses of free blocks of the right class, and no address
linked twice. -/
def Wf (hp : Heap) : Prop :=
  hp.table.length = 20 ∧
  hp.blocks ≠ [] ∧
  (∀ b ∈ hp.blocks, wfBlock b) ∧
  hp.endHeap = blockSum hp.blocks.dropLast ∧
  (∀ c ∈ List.range 20, ∀ a ∈ hp.table.getD c [],
    existsAt hp a = true ∧ usedAt hp a = false ∧ getClass (sizeAt hp a) = c) ∧
  hp.table.flatten.Nodup

instance (hp : Heap) : Decidable (Wf hp) := by
  unfold Wf; infer_instance

/-! ## Arithmetic facts about the class function and alignment -/

theorem getClassAux_spec (s : Nat) :
    ∀ fuel ind, ind + fuel = 20 →
      getClassAux s (64 * 2 ^ ind) ind fuel ≤ 20 ∧
      (getClassAux s (64 * 2 ^ ind) ind fuel < 20 →
        s < 64 * 2 ^ getClassAux s (64 * 2 ^ ind) ind fuel) ∧
      (∀ j, ind ≤ j → j < getClassAux s (64 * 2 ^ ind) ind fuel → 64 * 2 ^ j ≤ s) := by
  intro fuel
  induction fuel with
  | zero =>
    intro ind hind
    simp only [getClassAux]
    exact ⟨by omega, fun h => absurd h (by omega), fun j h1 h2 => absurd h2 (by omega)⟩
  | succ n ih =>
    intro ind hind
    simp only [getClassAux]
    by_cases hs : s < 64 * 2 ^ ind
    · simp only [if_pos hs]
      exact ⟨by omega, fun _ => hs, fun j h1 h2 => absurd h2 (by omega)⟩
    · simp only [if_neg hs]
      have heq : 64 * 2 ^ ind * 2 = 64 * 2 ^ (ind + 1) := by ring
      rw [heq]
      obtain ⟨h1, h2, h3⟩ := ih (ind + 1) (by omega)
      refine ⟨h1, h2, ?_⟩
      intro j hj1 hj2
      rcases Nat.eq_or_lt_of_le hj1 with h | h
      · subst h; omega
      · exact h3 j h hj2

theorem getClass_spec (s : Nat) :
    getClass s ≤ 20 ∧ (getClass s < 20 → s < 64 * 2 ^ getClass s) ∧
      (∀ j, j < getClass s → 64 * 2 ^ j ≤ s) := by
  have h := getClassAux_spec s 20 0 rfl
  have h64 : 64 * 2 ^ 0 = 64 := by norm_num
  rw [h64] at h
  have hg : getClass s = getClassAux s 64 0 20 := rfl
  rw [← hg] at h
  exact ⟨h.1, h.2.1, fun j hj => h.2.2 j (Nat.zero_le j) hj⟩

theorem getClass_le (s : Nat) : getClass s ≤ 20 := (getClass_spec s).1

theorem getClass_lt_bound {s : Nat} (h : getClass s < 20) : s < 64 * 2 ^ getClass s :=
  (getClass_spec s).2.1 h

theorem getClass_min {s : Nat} (j : Nat) (hj : j < getClass s) : 64 * 2 ^ j ≤ s :=
  (getClass_spec s).2.2 j hj

theorem getClass_mono {s t : Nat} (h : s ≤ t) : getClass s ≤ getClass t := by
  by_contra hc
  push_neg at hc
  have h1 : 64 * 2 ^ getClass t ≤ s := getClass_min (getClass t) hc
  have h2 : t < 64 * 2 ^ getClass t := getClass_lt_bound (lt_of_lt_of_le hc (getClass_le s))
  omega

/-- `GET_CLASS(size) > LIMIT_COALESCE` exactly when `size > MAX_DIM(LIMIT_COALESCE) = 255`. -/
theorem getClass_gt_two_iff (s : Nat) : 2 < getClass s ↔ 255 < s := by
  constructor
  · intro h
    have := getClass_min 2 h
    omega
  · intro h
    by_contra hc
    push_neg at hc
    have hlt : getClass s < 20 := by omega
    have hb := getClass_lt_bound hlt
    have h2 : (2 : Nat) ^ getClass s ≤ 2 ^ 2 := Nat.pow_le_pow_right (by norm_num) (by omega)
    have : (2 : Nat) ^ 2 = 4 := by norm_num
    omega

/-- The class is 20 (past the last table slot) exactly for sizes of at
least `64 * 2^19` bytes. -/
theorem getClass_eq_twenty_iff (s : Nat) : getClass s = 20 ↔ 64 * 2 ^ 19 ≤ s := by
  constructor
  · intro h
    exact getClass_min 19 (by omega)
  · intro h
    by_contra hc
    have hlt : getClass s < 20 := lt_of_le_of_ne (getClass_le s) hc
    have hb := getClass_lt_bound hlt
    have h2 : (2 : Nat) ^ getClass s ≤ 2 ^ 19 := Nat.pow_le_pow_right (by norm_num) (by omega)
    omega

theorem align_mono {s t : Nat} (h : s ≤ t) : align s ≤ align t :=
  Nat.mul_le_mul_right 8 (Nat.div_le_div_right (by omega))

theorem align_eq_self {s : Nat} (h : s % 8 = 0) : align s = s := by
  unfold align; omega

theorem le_align (s : Nat) : s ≤ align s := by
  unfold align; omega

/-! ## Block-sum and locate lemmas -/

@[simp] theorem blockSum_nil : blockSum [] = 0 := rfl

@[simp] theorem blockSum_cons (b : Block) (l : List Block) :
    blockSum (b :: l) = b.size + blockSum l := by
  simp [blockSum]

@[simp] theorem blockSum_append (l₁ l₂ : List Block) :
    blockSum (l₁ ++ l₂) = blockSum l₁ + blockSum l₂ := by
  simp [blockSum]

theorem locate_decomp :
    ∀ {l : List Block} {a : Nat} {pre : List Block} {b : Block} {post : List Block},
      locate l a = some (pre, b, post) → l = pre ++ b :: post ∧ a = blockSum pre := by
  intro l
  induction l with
  | nil => intro a pre b post h; simp [locate] at h
  | cons x xs ih =>
    intro a pre b post h
    simp only [locate] at h
    by_cases ha : a = 0
    · rw [if_pos ha] at h
      simp only [Option.some.injEq, Prod.mk.injEq] at h
      obtain ⟨rfl, rfl, rfl⟩ := h
      subst ha
      simp
    · rw [if_neg ha] at h
      by_cases hlt : a < x.size
      · simp [if_pos hlt] at h
      · rw [if_neg hlt] at h
        rcases hrec : locate xs (a - x.size) with _ | ⟨⟨p, c, q⟩⟩ <;>
          simp only [hrec] at h
        · exact absurd h (by simp)
        · simp only [Option.some.injEq, Prod.mk.injEq] at h
          obtain ⟨rfl, rfl, rfl⟩ := h
          obtain ⟨hl, hs⟩ := ih hrec
          refine ⟨by simp [hl], ?_⟩
          simp only [blockSum_cons]
          omega

theorem locate_append_at :
    ∀ (pre : List Block), (∀ x ∈ pre, 0 < x.size) → ∀ (b : Block) (post : List Block),
      locate (pre ++ b :: post) (blockSum pre) = some (pre, b, post) := by
  intro pre
  induction pre with
  | nil => intro _ b post; simp [locate]
  | cons x xs ih =>
    intro hsz b post
    have hx : 0 < x.size := hsz x (by simp)
    have hxs : ∀ y ∈ xs, 0 < y.size := fun y hy => hsz y (by simp [hy])
    simp only [List.cons_append, locate, blockSum_cons, List.append_eq]
    rw [if_neg (by omega), if_neg (by omega)]
    have harith : x.size + blockSum xs - x.size = blockSum xs := by omega
    rw [harith, ih hxs b post]

theorem locate_append_left :
    ∀ {l₁ : List Block} {p : Nat} {pre : List Block} {b : Block} {post : List Block}
      (l₂ : List Block),
      locate l₁ p = some (pre, b, post) →
      locate (l₁ ++ l₂) p = some (pre, b, post ++ l₂) := by
  intro l₁
  induction l₁ with
  | nil => intro p pre b post l₂ h; simp [locate] at h
  | cons x xs ih =>
    intro p pre b post l₂ h
    simp only [locate] at h
    simp only [List.cons_append, locate, List.append_eq]
    by_cases hp : p = 0
    · rw [if_pos hp] at h ⊢
      simp only [Option.some.injEq, Prod.mk.injEq] at h
      obtain ⟨rfl, rfl, rfl⟩ := h
      rfl
    · rw [if_neg hp] at h ⊢
      by_cases hlt : p < x.size
      · simp [if_pos hlt] at h
      · rw [if_neg hlt] at h ⊢
        rcases hrec : locate xs (p - x.size) with _ | ⟨⟨pr, c, q⟩⟩ <;>
          simp only [hrec] at h
        · exact absurd h (by simp)
        · simp only [Option.some.injEq, Prod.mk.injEq] at h
          obtain ⟨rfl, rfl, rfl⟩ := h
          rw [ih l₂ hrec]

theorem locate_shift :
    ∀ (l₁ : List Block), (∀ x ∈ l₁, 0 < x.size) → ∀ (l₂ : List Block) (d : Nat),
      locate (l₁ ++ l₂) (blockSum l₁ + d) =
        (locate l₂ d).map (fun t => (l₁ ++ t.1, t.2.1, t.2.2)) := by
  intro l₁
  induction l₁ with
  | nil =>
    intro _ l₂ d
    simp only [List.nil_append, blockSum_nil, Nat.zero_add]
    rcases h : locate l₂ d with _ | ⟨⟨p, c, q⟩⟩ <;> simp [h]
  | cons x xs ih =>
    intro hsz l₂ d
    have hx : 0 < x.size := hsz x (by simp)
    have hxs : ∀ y ∈ xs, 0 < y.size := fun y hy => hsz y (by simp [hy])
    simp only [List.cons_append, locate, blockSum_cons, List.append_eq]
    rw [if_neg (by omega), if_neg (by omega)]
    have harith : x.size + blockSum xs + d - x.size = blockSum xs + d := by omega
    rw [harith, ih hxs l₂ d]
    rcases h : locate l₂ d with _ | ⟨⟨p, c, q⟩⟩ <;> simp [h]

theorem locate_cases :
    ∀ {l₁ l₂ : List Block} {p : Nat} {t : List Block × Block × List Block},
      locate (l₁ ++ l₂) p = some t →
      (∃ t₁, locate l₁ p = some t₁) ∨
      (blockSum l₁ ≤ p ∧ ∃ t₂, locate l₂ (p - blockSum l₁) = some t₂) := by
  intro l₁
  induction l₁ with
  | nil =>
    intro l₂ p t h
    right
    exact ⟨Nat.zero_le p, t, by simpa using h⟩
  | cons x xs ih =>
    intro l₂ p t h
    simp only [List.cons_append, locate, List.append_eq] at h
    by_cases hp : p = 0
    · left
      subst hp
      exact ⟨([], x, xs), by simp [locate]⟩
    · rw [if_neg hp] at h
      by_cases hlt : p < x.size
      · simp [if_pos hlt] at h
      · rw [if_neg hlt] at h
        rcases hrec : locate (xs ++ l₂) (p - x.size) with _ | ⟨⟨pr, c, q⟩⟩ <;>
          simp only [hrec] at h
        · exact absurd h (by simp)
        · rcases ih hrec with ⟨t₁, ht₁⟩ | ⟨hle, t₂, ht₂⟩
          · left
            refine ⟨(x :: t₁.1, t₁.2.1, t₁.2.2), ?_⟩
            simp only [locate, if_neg hp, if_neg hlt]
            rcases t₁ with ⟨a1, b1, c1⟩
            rw [ht₁]
          · right
            constructor
            · simp only [blockSum_cons]; omega
            · refine ⟨t₂, ?_⟩
              have harith : p - blockSum (x :: xs) = p - x.size - blockSum xs := by
                simp only [blockSum_cons]; omega
              rw [harith]
              exact ht₂

theorem locate_lt_blockSum {l : List Block} {p : Nat} {t : List Block × Block × List Block}
    (h : locate l p = some t) (hsz : ∀ x ∈ l, 0 < x.size) : p < blockSum l := by
  obtain ⟨pre, b, post⟩ := t
  obtain ⟨hl, hs⟩ := locate_decomp h
  have hb : 0 < b.size := hsz b (by rw [hl]; simp)
  rw [hl, hs]
  simp only [blockSum_append, blockSum_cons]
  omega

theorem blockAtL_of_locate {l : List Block} {p : Nat} {pre : List Block} {b : Block}
    {post : List Block} (h : locate l p = some (pre, b, post)) : blockAtL l p = some b := by
  simp [blockAtL, h]

theorem blockAtL_append_at (pre : List Block) (hpre : ∀ x ∈ pre, 0 < x.size) (b : Block)
    (post : List Block) : blockAtL (pre ++ b :: post) (blockSum pre) = some b := by
  simp [blockAtL, locate_append_at pre hpre b post]

/-- Replacing the block at address `blockSum pre` by a run of blocks of the
same total size leaves the block found at every other valid address
unchanged. -/
theorem blockAtL_replace {pre : List Block} {b : Block} {post mid : List Block}
    (hpre : ∀ x ∈ pre, 0 < x.size) (hmid : ∀ x ∈ mid, 0 < x.size)
    (hsum : blockSum mid = b.size) {p : Nat} (hne : p ≠ blockSum pre) {bp : Block}
    (hv : blockAtL (pre ++ b :: post) p = some bp) :
    blockAtL (pre ++ mid ++ post) p = some bp := by
  rcases hloc : locate (pre ++ b :: post) p with _ | t
  · rw [blockAtL, hloc] at hv; exact absurd hv (by simp)
  · rw [blockAtL, hloc] at hv
    simp only [Option.map_some'] at hv
    rcases locate_cases hloc with ⟨t₁, ht₁⟩ | ⟨hle, t₂, ht₂⟩
    · obtain ⟨p₁, b₁, q₁⟩ := t₁
      have hold := locate_append_left (b :: post) ht₁
      rw [hold] at hloc
      injection hloc with hloc'
      subst hloc'
      simp only at hv
      have hnew := locate_append_left (mid ++ post) ht₁
      rw [← List.append_assoc] at hnew
      rw [blockAtL, hnew]
      simpa using hv
    · set d := p - blockSum pre with hd
      have hpd : p = blockSum pre + d := by omega
      have hd0 : d ≠ 0 := by omega
      obtain ⟨p₂, b₂, q₂⟩ := t₂
      -- analyse the locate step into `b :: post`
      simp only [locate] at ht₂
      rw [if_neg hd0] at ht₂
      by_cases hdlt : d < b.size
      · simp [if_pos hdlt] at ht₂
      · rw [if_neg hdlt] at ht₂
        rcases hrec : locate post (d - b.size) with _ | ⟨⟨p₃, b₃, q₃⟩⟩ <;>
          simp only [hrec] at ht₂
        · exact absurd ht₂ (by simp)
        · -- the old blockAt value is b₃
          have hshift := locate_shift pre hpre (b :: post) d
          rw [← hpd] at hshift
          rw [hshift] at hloc
          have ht₂' : locate (b :: post) d = some (p₂, b₂, q₂) := by
            simp only [locate, if_neg hd0, if_neg hdlt, hrec]
            exact ht₂
          rw [ht₂'] at hloc
          simp only [Option.map_some', Option.some.injEq] at hloc
          have hbp : b₂ = bp := by rw [← hloc] at hv; simpa using hv
          have hb₂ : b₂ = b₃ := by
            simp only [Option.some.injEq, Prod.mk.injEq] at ht₂
            exact ht₂.2.1.symm
          -- compute the new blockAt value
          have hmid' : ∀ x ∈ pre ++ mid, 0 < x.size := by
            intro x hx
            rcases List.mem_append.mp hx with hx | hx
            · exact hpre x hx
            · exact hmid x hx
          have hpd' : p = blockSum (pre ++ mid) + (d - b.size) := by
            simp only [blockSum_append]
            omega
          have hshift' := locate_shift (pre ++ mid) hmid' post (d - b.size)
          rw [← hpd'] at hshift'
          rw [blockAtL, hshift', hrec]
          simp [← hbp, hb₂]

/-- Replacing a run of free blocks by a single merged block of the same
total size leaves the block found at every valid address outside the run
unchanged. -/
theorem blockAtL_merge {pre seg post : List Block} {merged : Block}
    (hpre : ∀ x ∈ pre, 0 < x.size) (hseg : ∀ x ∈ seg, 0 < x.size)
    (hsum : blockSum seg = merged.size) (hm : 0 < merged.size) {p : Nat}
    (hrange : (∃ t₁, locate pre p = some t₁) ∨ blockSum pre + blockSum seg ≤ p)
    {bp : Block} (hv : blockAtL (pre ++ seg ++ post) p = some bp) :
    blockAtL (pre ++ merged :: post) p = some bp := by
  rcases hloc : locate (pre ++ seg ++ post) p with _ | t
  · rw [blockAtL, hloc] at hv; exact absurd hv (by simp)
  · rw [blockAtL, hloc] at hv
    simp only [Option.map_some'] at hv
    rcases hrange with ⟨t₁, ht₁⟩ | hge
    · obtain ⟨p₁, b₁, q₁⟩ := t₁
      have hold := locate_append_left (seg ++ post) ht₁
      rw [← List.append_assoc] at hold
      rw [hold] at hloc
      injection hloc with hloc'
      subst hloc'
      simp only at hv
      have hnew := locate_append_left (merged :: post) ht₁
      rw [blockAtL, hnew]
      simpa using hv
    · set e := p - (blockSum pre + blockSum seg) with he
      have hpe : p = blockSum pre + (blockSum seg + e) := by omega
      have hps : ∀ x ∈ pre ++ seg, 0 < x.size := by
        intro x hx
        rcases List.mem_append.mp hx with hx | hx
        · exact hpre x hx
        · exact hseg x hx
      have hpe' : p = blockSum (pre ++ seg) + e := by
        simp only [blockSum_append]; omega
      have hshift := locate_shift (pre ++ seg) hps post e
      rw [← hpe'] at hshift
      rw [hshift] at hloc
      rcases hrec : locate post e with _ | ⟨⟨p₃, b₃, q₃⟩⟩ <;> rw [hrec] at hloc
      · exact absurd hloc (by simp)
      · simp only [Option.map_some', Option.some.injEq] at hloc
        have hbp : b₃ = bp := by rw [← hloc] at hv; simpa using hv
        have hstep : locate (merged :: post) (merged.size + e) = some
            (merged :: p₃, b₃, q₃) := by
          simp only [locate]
          rw [if_neg (by omega), if_neg (by omega)]
          have harith : merged.size + e - merged.size = e := by omega
          rw [harith, hrec]
        have hpe'' : p = blockSum pre + (merged.size + e) := by omega
        have hshift' := locate_shift pre hpre (merged :: post) (merged.size + e)
        rw [← hpe''] at hshift'
        rw [blockAtL, hshift', hstep]
        simp [← hbp]

/-! ## Observation rewrites -/

theorem sizeAt_of_locate {hp : Heap} {a : Nat} {pre : List Block} {b : Block}
    {post : List Block} (h : locate hp.blocks a = some (pre, b, post)) :
    sizeAt hp a = b.size := by
  simp [sizeAt, blockAt, blockAtL, h]

theorem usedAt_of_locate {hp : Heap} {a : Nat} {pre : List Block} {b : Block}
    {post : List Block} (h : locate hp.blocks a = some (pre, b, post)) :
    usedAt hp a = b.used := by
  simp [usedAt, blockAt, blockAtL, h]

theorem dataAt_of_locate {hp : Heap} {a : Nat} {pre : List Block} {b : Block}
    {post : List Block} (h : locate hp.blocks a = some (pre, b, post)) :
    dataAt hp a = b.data := by
  simp [dataAt, blockAt, blockAtL, h]

theorem sizeAt_of_blockAt {hp : Heap} {a : Nat} {b : Block} (h : blockAt hp a = some b) :
    sizeAt hp a = b.size := by
  simp [sizeAt, h]

theorem usedAt_of_blockAt {hp : Heap} {a : Nat} {b : Block} (h : blockAt hp a = some b) :
    usedAt hp a = b.used := by
  simp [usedAt, h]

theorem fsizeAt_of_blockAt {hp : Heap} {a : Nat} {b : Block} (h : blockAt hp a = some b) :
    fsizeAt hp a = b.fsize := by
  simp [fsizeAt, h]

theorem fusedAt_of_blockAt {hp : Heap} {a : Nat} {b : Block} (h : blockAt hp a = some b) :
    fusedAt hp a = b.fused := by
  simp [fusedAt, h]

theorem dataAt_of_blockAt {hp : Heap} {a : Nat} {b : Block} (h : blockAt hp a = some b) :
    dataAt hp a = b.data := by
  simp [dataAt, h]

/-! ## Well-formedness accessors -/

theorem Wf.tableLen {hp : Heap} (h : Wf hp) : hp.table.length = 20 := h.1

theorem Wf.blocksWf {hp : Heap} (h : Wf hp) : ∀ b ∈ hp.blocks, wfBlock b := h.2.2.1

theorem Wf.posSizes {hp : Heap} (h : Wf hp) : ∀ b ∈ hp.blocks, 0 < b.size :=
  fun b hb => by have := (h.blocksWf b hb).1; omega

theorem Wf.endHeapEq {hp : Heap} (h : Wf hp) : hp.endHeap = blockSum hp.blocks.dropLast :=
  h.2.2.2.1

theorem Wf.listMem {hp : Heap} (h : Wf hp) :
    ∀ c ∈ List.range 20, ∀ a ∈ hp.table.getD c [],
      existsAt hp a = true ∧ usedAt hp a = false ∧ getClass (sizeAt hp a) = c :=
  h.2.2.2.2.1

theorem Wf.nodup {hp : Heap} (h : Wf hp) : hp.table.flatten.Nodup := h.2.2.2.2.2

/-! ## Table lemmas -/

theorem getD_tableModify_self (f : List Nat → List Nat) (t : List (List Nat)) (c : Nat)
    (h : c < t.length) : (tableModify t c f).getD c [] = f (t.getD c []) := by
  induction t generalizing c with
  | nil => simp at h
  | cons x xs ih =>
    cases c with
    | zero => simp [tableModify]
    | succ n =>
      simp only [tableModify, List.getD_cons_succ]
      exact ih n (by simpa using h)

theorem getD_tableModify_other (f : List Nat → List Nat) (t : List (List Nat)) (c c' : Nat)
    (h : c ≠ c') : (tableModify t c f).getD c' [] = t.getD c' [] := by
  induction t generalizing c c' with
  | nil => simp [tableModify]
  | cons x xs ih =>
    cases c with
    | zero =>
      cases c' with
      | zero => exact absurd rfl h
      | succ m => simp [tableModify]
    | succ n =>
      cases c' with
      | zero => simp [tableModify]
      | succ m =>
        simp only [tableModify, List.getD_cons_succ]
        exact ih n m (by omega)

theorem length_tableModify (f : List Nat → List Nat) (t : List (List Nat)) (c : Nat) :
    (tableModify t c f).length = t.length := by
  induction t generalizing c with
  | nil => simp [tableModify]
  | cons x xs ih =>
    cases c with
    | zero => simp [tableModify]
    | succ n => simpa [tableModify] using ih n

theorem tableModify_oob (f : List Nat → List Nat) (t : List (List Nat)) (c : Nat)
    (h : t.length ≤ c) : tableModify t c f = t := by
  induction t generalizing c with
  | nil => simp [tableModify]
  | cons x xs ih =>
    cases c with
    | zero => simp at h
    | succ n =>
      simp only [tableModify, List.cons.injEq, true_and]
      exact ih n (by simpa using h)

/-! ## Best-fit search specification -/

theorem sflGo_spec (hp : Heap) (need : Nat) :
    ∀ (l : List Nat) (best : Option Nat),
      (∀ b, best = some b → need ≤ sizeAt hp b) →
      (sflGo hp need l best = none → best = none ∧ ∀ x ∈ l, sizeAt hp x < need) ∧
      (∀ a, sflGo hp need l best = some a →
        (a ∈ l ∨ best = some a) ∧ need ≤ sizeAt hp a ∧
        (∀ x ∈ l, need ≤ sizeAt hp x → sizeAt hp a ≤ sizeAt hp x) ∧
        (∀ b, best = some b → sizeAt hp a ≤ sizeAt hp b)) := by
  intro l
  induction l with
  | nil =>
    intro best hbest
    constructor
    · intro h
      exact ⟨by simpa [sflGo] using h, fun x hx => absurd hx (by simp)⟩
    · intro a ha
      have hba : best = some a := by simpa [sflGo] using ha
      refine ⟨Or.inr hba, hbest a hba, fun x hx => absurd hx (by simp), ?_⟩
      intro b hb
      rw [hba] at hb
      injection hb with hb
      rw [hb]
  | cons x rest ih =>
    intro best hbest
    cases best with
    | none =>
      by_cases h1 : need ≤ sizeAt hp x
      · by_cases h2 : sizeAt hp x = need
        · have hres : sflGo hp need (x :: rest) none = some x := by
            simp [sflGo, h1, h2]
          rw [hres]
          constructor
          · intro h; exact absurd h (by simp)
          · intro a ha
            injection ha with ha
            subst ha
            refine ⟨Or.inl (by simp), h1, ?_, by simp⟩
            intro y _ hy
            omega
        · have hres : sflGo hp need (x :: rest) none = sflGo hp need rest (some x) := by
            simp [sflGo, h1, h2]
          rw [hres]
          have hbest' : ∀ b, (some x : Option Nat) = some b → need ≤ sizeAt hp b := by
            intro b hb; injection hb with hb; rw [← hb]; exact h1
          obtain ⟨ihn, ihs⟩ := ih (some x) hbest'
          constructor
          · intro h
            exact absurd (ihn h).1 (by simp)
          · intro a ha
            obtain ⟨hmem, hle, hmin, hbnd⟩ := ihs a ha
            refine ⟨?_, hle, ?_, by simp⟩
            · rcases hmem with hm | hm
              · exact Or.inl (by simp [hm])
              · injection hm with hm; exact Or.inl (by simp [hm])
            · intro y hy hys
              rcases List.mem_cons.mp hy with rfl | hy'
              · exact hbnd y rfl
              · exact hmin y hy' hys
      · have hres : sflGo hp need (x :: rest) none = sflGo hp need rest none := by
          simp [sflGo, h1]
        rw [hres]
        obtain ⟨ihn, ihs⟩ := ih none (by simp)
        constructor
        · intro h
          obtain ⟨h', hall⟩ := ihn h
          refine ⟨rfl, ?_⟩
          intro y hy
          rcases List.mem_cons.mp hy with rfl | hy'
          · omega
          · exact hall y hy'
        · intro a ha
          obtain ⟨hmem, hle, hmin, _⟩ := ihs a ha
          refine ⟨?_, hle, ?_, by simp⟩
          · rcases hmem with hm | hm
            · exact Or.inl (by simp [hm])
            · exact absurd hm (by simp)
          · intro y hy hys
            rcases List.mem_cons.mp hy with rfl | hy'
            · omega
            · exact hmin y hy' hys
    | some b =>
      by_cases h1 : need ≤ sizeAt hp x ∧ sizeAt hp x < sizeAt hp b
      · by_cases h2 : sizeAt hp x = need
        · have hres : sflGo hp need (x :: rest) (some b) = some x := by
            simp only [sflGo]
            rw [if_pos h1, if_pos h2]
          rw [hres]
          constructor
          · intro h; exact absurd h (by simp)
          · intro a ha
            injection ha with ha
            subst ha
            refine ⟨Or.inl (by simp), h1.1, ?_, ?_⟩
            · intro y _ hy
              omega
            · intro b' hb'
              injection hb' with hb'
              subst hb'
              omega
        · have hres : sflGo hp need (x :: rest) (some b) = sflGo hp need rest (some x) := by
            simp only [sflGo]
            rw [if_pos h1, if_neg h2]
          rw [hres]
          have hbest' : ∀ b', (some x : Option Nat) = some b' → need ≤ sizeAt hp b' := by
            intro b' hb'; injection hb' with hb'; rw [← hb']; exact h1.1
          obtain ⟨ihn, ihs⟩ := ih (some x) hbest'
          constructor
          · intro h
            exact absurd (ihn h).1 (by simp)
          · intro a ha
            obtain ⟨hmem, hle, hmin, hbnd⟩ := ihs a ha
            have hax : sizeAt hp a ≤ sizeAt hp x := hbnd x rfl
            refine ⟨?_, hle, ?_, ?_⟩
            · rcases hmem with hm | hm
              · exact Or.inl (by simp [hm])
              · injection hm with hm; exact Or.inl (by simp [hm])
            · intro y hy hys
              rcases List.mem_cons.mp hy with rfl | hy'
              · exact hax
              · exact hmin y hy' hys
            · intro b' hb'
              injection hb' with hb'
              subst hb'
              omega
      · have hres : sflGo hp need (x :: rest) (some b) = sflGo hp need rest (some b) := by
          simp only [sflGo]
          rw [if_neg h1]
        rw [hres]
        obtain ⟨ihn, ihs⟩ := ih (some b) hbest
        constructor
        · intro h
          exact absurd (ihn h).1 (by simp)
        · intro a ha
          obtain ⟨hmem, hle, hmin, hbnd⟩ := ihs a ha
          have hab : sizeAt hp a ≤ sizeAt hp b := hbnd b rfl
          refine ⟨?_, hle, ?_, ?_⟩
          · rcases hmem with hm | hm
            · exact Or.inl (by simp [hm])
            · exact Or.inr hm
          · intro y hy hys
            rcases List.mem_cons.mp hy with rfl | hy'
            · have : sizeAt hp b ≤ sizeAt hp y := by
                rcases Nat.lt_or_ge (sizeAt hp y) (sizeAt hp b) with h | h
                · exact absurd ⟨hys, h⟩ h1
                · exact h
              omega
            · exact hmin y hy' hys
          · intro b' hb'
            injection hb' with hb'
            subst hb'
            exact hab

theorem search_free_list_in_range (hp : Heap) (c : Int) (need : Nat) (h0 : 0 ≤ c)
    (h1 : c < 20) :
    search_free_list hp c need = sflGo hp need (hp.table.getD c.toNat []) none := by
  unfold search_free_list
  rw [if_neg (by omega)]

/-! ## Failure of `mm_malloc` leaves the heap unchanged -/

theorem mm_malloc_none_eq {hp : Heap} {s : Nat} {ok : Bool}
    (h : (mm_malloc hp s ok).1 = none) : mm_malloc hp s ok = (none, hp) := by
  unfold mm_malloc at h ⊢
  by_cases hs : s = 0
  · simp [hs]
  · simp only [if_neg hs] at h ⊢
    rcases hm : mallocLoop hp (max 32 (align (s + 16)))
        (getClass (max 32 (align (s + 16)))) with _ | ca
    · simp only [hm] at h ⊢
      cases ok with
      | true => simp at h
      | false => rfl
    · rcases hloc : locate hp.blocks ca.2 with _ | ⟨⟨pre, b, post⟩⟩
      · simp only [hm, hloc] at h ⊢
      · simp only [hm, hloc] at h ⊢
        by_cases hrem : b.size - max 32 (align (s + 16)) ≤ 32
        · simp only [if_pos hrem] at h
          exact absurd h (by simp)
        · simp only [if_neg hrem] at h
          exact absurd h (by simp)

theorem search_free_list_spec (hp : Heap) (c : Int) (need : Nat) (h0 : 0 ≤ c) (h1 : c < 20) :
    (∀ a, search_free_list hp c need = some a →
      a ∈ hp.table.getD c.toNat [] ∧ need ≤ sizeAt hp a ∧
      ∀ x ∈ hp.table.getD c.toNat [], need ≤ sizeAt hp x → sizeAt hp a ≤ sizeAt hp x) ∧
    (search_free_list hp c need = none ↔
      ∀ x ∈ hp.table.getD c.toNat [], sizeAt hp x < need) := by
  rw [search_free_list_in_range hp c need h0 h1]
  obtain ⟨hn, hs⟩ := sflGo_spec hp need (hp.table.getD c.toNat []) none (by simp)
  constructor
  · intro a ha
    obtain ⟨hmem, hle, hmin, _⟩ := hs a ha
    refine ⟨?_, hle, hmin⟩
    rcases hmem with hm | hm
    · exact hm
    · exact absurd hm (by simp)
  · constructor
    · intro h
      exact (hn h).2
    · intro hall
      rcases hres : sflGo hp need (hp.table.getD c.toNat []) none with _ | a
      · rfl
      · obtain ⟨hmem, hle, _, _⟩ := hs a hres
        rcases hmem with hm | hm
        · exact absurd hle (by have := hall a hm; omega)
        · exact absurd hm (by simp)

/-! ## Claim C7 -/

/-- C7: under the best-fit policy, for every class `c ∈ [0, 20)`,
`search_free_list(c, need)` returns a block of minimal size among the
blocks on list `c` whose size is at least `need` (the early exit on an
exact match cannot miss a smaller candidate), and returns none exactly
when no block on the list is large enough. -/
theorem c7_search_best_fit (hp : Heap) (c : Int) (need : Nat) (h0 : 0 ≤ c) (h1 : c < 20) :
    (∀ a, search_free_list hp c need = some a →
      a ∈ hp.table.getD c.toNat [] ∧ need ≤ sizeAt hp a ∧
      ∀ x ∈ hp.table.getD c.toNat [], need ≤ sizeAt hp x → sizeAt hp a ≤ sizeAt hp x) ∧
    (search_free_list hp c need = none ↔
      ∀ x ∈ hp.table.getD c.toNat [], sizeAt hp x < need) :=
  search_free_list_spec hp c need h0 h1

/-- A small heap with two free blocks (sizes 48 and 40) both on class
list 0, exercising the best-fit scan. -/
def searchHeap : Heap :=
  { blocks :=
      [{ size := 48, used := false, fsize := 48, fused := false, data := List.replicate 32 0 },
       { size := 40, used := false, fsize := 40, fused := false, data := List.replicate 24 0 }],
    table := [0, 48] :: List.replicate 19 [],
    endHeap := 48 }

theorem c7_search_best_fit_witness :
    (0 : Int) ≤ 0 ∧ (0 : Int) < 20 ∧
    ((∀ a, search_free_list searchHeap 0 40 = some a →
      a ∈ searchHeap.table.getD (0 : Int).toNat [] ∧ 40 ≤ sizeAt searchHeap a ∧
      ∀ x ∈ searchHeap.table.getD (0 : Int).toNat [],
        40 ≤ sizeAt searchHeap x → sizeAt searchHeap a ≤ sizeAt searchHeap x) ∧
    (search_free_list searchHeap 0 40 = none ↔
      ∀ x ∈ searchHeap.table.getD (0 : Int).toNat [], sizeAt searchHeap x < 40)) :=
  ⟨by decide, by decide, c7_search_best_fit searchHeap 0 40 (by decide) (by decide)⟩

/-! ## Claim C8 -/

/-- C8 counterexample: `GET_CLASS` assigns class 1 (not 0) to size 64 — the
class ranges are `[64·2^(c-1), 64·2^c)`, not `(64·2^(c-1), 64·2^c]` — and
assigns class 20 (outside `[0, 19]`) to every size of at least `64·2^19`
bytes, so class 19 is not an unbounded upper bucket. -/
theorem c8_class_counterexample : getClass 64 = 1 ∧ getClass (64 * 2 ^ 19) = 20 := by
  decide

/-- C8 (amended): `GET_CLASS` returns the smallest `c` with `64·2^c > size`,
capped at 20: the result lies in `[0, 20]`; class 0 holds exactly the sizes
below 64; a result `c < 20` satisfies `size < 64·2^c` while every `j < c`
has `64·2^j ≤ size`; and the result is 20 — one past the last table slot —
exactly for sizes of at least `64·2^19` bytes. -/
theorem c8_class_amended (s : Nat) :
    getClass s ≤ 20 ∧
    (getClass s < 20 → s < 64 * 2 ^ getClass s) ∧
    (∀ j, j < getClass s → 64 * 2 ^ j ≤ s) ∧
    (getClass s = 20 ↔ 64 * 2 ^ 19 ≤ s) ∧
    (s < 64 ↔ getClass s = 0) := by
  refine ⟨getClass_le s, fun h => getClass_lt_bound h, fun j hj => getClass_min j hj,
    getClass_eq_twenty_iff s, ?_, ?_⟩
  · intro h
    by_contra hc
    have h64 : 64 * 2 ^ 0 ≤ s := getClass_min 0 (by omega)
    simp at h64
    omega
  · intro h
    have hlt : getClass s < 20 := by omega
    have hb := getClass_lt_bound hlt
    rw [h] at hb
    simpa using hb

theorem c8_class_amended_witness :
    getClass 100 ≤ 20 ∧
    (getClass 100 < 20 → 100 < 64 * 2 ^ getClass 100) ∧
    (∀ j, j < getClass 100 → 64 * 2 ^ j ≤ 100) ∧
    (getClass 100 = 20 ↔ 64 * 2 ^ 19 ≤ 100) ∧
    (100 < 64 ↔ getClass 100 = 0) :=
  c8_class_amended 100

/-! ## Claim C2 -/

/-- C2: when growing a used block has to take the allocate–copy–free
fallback (the rightward absorption simulation fails) and the internal
allocate returns none, `mm_realloc` returns none and the heap — blocks
(header, footer, in-use bit, payload bytes), every free list, and the
last-block pointer — is exactly the heap before the call. -/
theorem c2_fallback_failure_leaves_state (hp : Heap) (p n : Nat) (ok : Bool)
    (hused : usedAt hp p = true) (hn : 0 < n)
    (hgrow : sizeAt hp p < max 32 (align (n + 16)))
    (hsim : simulate_right_coalesce hp p (max 32 (align (n + 16)) - sizeAt hp p) = false)
    (hfail : (mm_malloc hp (max 32 (align (n + 16))) ok).1 = none) :
    mm_realloc hp (some p) n ok = (none, hp) ∧
    (mm_realloc hp (some p) n ok).2.blocks = hp.blocks ∧
    (mm_realloc hp (some p) n ok).2.table = hp.table ∧
    (mm_realloc hp (some p) n ok).2.endHeap = hp.endHeap ∧
    blockAt (mm_realloc hp (some p) n ok).2 p = blockAt hp p ∧
    dataAt (mm_realloc hp (some p) n ok).2 p = dataAt hp p ∧
    usedAt (mm_realloc hp (some p) n ok).2 p = true := by
  have hml := mm_malloc_none_eq hfail
  have hmain : mm_realloc hp (some p) n ok = (none, hp) := by
    simp only [mm_realloc]
    rw [if_neg (by omega : ¬n = 0)]
    simp only [if_neg (by omega : ¬max 32 (align (n + 16)) = sizeAt hp p), if_pos hgrow,
      hsim, Bool.false_eq_true, if_false, hml]
  exact ⟨hmain, by rw [hmain], by rw [hmain], by rw [hmain], by rw [hmain],
    by rw [hmain], by rw [hmain]; exact hused⟩

/-- A heap holding one used block of 32 bytes and nothing on any free
list. -/
def usedOnlyHeap : Heap :=
  { blocks := [{ size := 32, used := true, fsize := 32, fused := true,
                 data := List.replicate 16 0 }],
    table := List.replicate 20 [],
    endHeap := 0 }

theorem c2_fallback_failure_leaves_state_witness :
    usedAt usedOnlyHeap 0 = true ∧ 0 < 100 ∧
    sizeAt usedOnlyHeap 0 < max 32 (align (100 + 16)) ∧
    simulate_right_coalesce usedOnlyHeap 0
      (max 32 (align (100 + 16)) - sizeAt usedOnlyHeap 0) = false ∧
    (mm_malloc usedOnlyHeap (max 32 (align (100 + 16))) false).1 = none ∧
    mm_realloc usedOnlyHeap (some 0) 100 false = (none, usedOnlyHeap) :=
  ⟨by decide, by decide, by decide, by decide, by decide,
   (c2_fallback_failure_leaves_state usedOnlyHeap 0 100 false (by decide) (by decide)
     (by decide) (by decide) (by decide)).1⟩

/-! ## Claim C1 -/

set_option maxRecDepth 200000

/-- The heap after `init; p := allocate(560); q := allocate(260); free(q);
resize(p, 16)` (all grow calls succeeding). -/
def shrinkTrace : Heap :=
  let r1 := mm_malloc initHeap 560 true
  let r2 := mm_malloc r1.2 260 true
  let h3 := mm_free r2.2 r2.1
  (mm_realloc h3 r1.1 16 true).2

/-- C1 fails on the code: after the public operations `p := allocate(560)`
(a 576-byte block), `q := allocate(260)` (a 280-byte block), `free(q)`,
`resize(p, 16)`, the resize-shrink split leaves a free 544-byte remainder
at address 64 directly adjacent to the free 280-byte block at address 608 —
two adjacent free blocks both larger than `MAX_DIM(LIMIT_COALESCE) = 255` —
because `split` never re-coalesces the remainder.  The code's own checker
`mm_check` reports exactly this pair, so the code contradicts its own
diagnostic. -/
theorem c1_resize_shrink_breaks_coalesce_invariant :
    usedAt shrinkTrace 64 = false ∧ 255 < sizeAt shrinkTrace 64 ∧
    usedAt shrinkTrace 608 = false ∧ 255 < sizeAt shrinkTrace 608 ∧
    64 + sizeAt shrinkTrace 64 = 608 ∧
    (mm_check shrinkTrace).1 = [(64, 608)] := by
  decide

/-! ## Claim C9 -/

/-- A (corrupted) heap whose class-0 list holds the used block at address 0
as its head: the checker should report it but never inspects list heads. -/
def headBugHeap : Heap :=
  { blocks :=
      [{ size := 32, used := true, fsize := 32, fused := true, data := List.replicate 16 0 },
       { size := 32, used := true, fsize := 32, fused := true, data := List.replicate 16 0 }],
    table := [0] :: List.replicate 19 [],
    endHeap := 32 }

/-- A (corrupted) heap whose class-0 list is empty while class 1 links the
used block at address 32 as a non-head element: the checker should report
it but breaks out of the class loop at the first empty list. -/
def breakBugHeap : Heap :=
  { blocks :=
      [{ size := 32, used := true, fsize := 32, fused := true, data := List.replicate 16 0 },
       { size := 32, used := true, fsize := 32, fused := true, data := List.replicate 16 0 }],
    table := [] :: [0, 32] :: List.replicate 18 [],
    endHeap := 32 }

/-- C9 fails on the code: `mm_check` reports nothing on a heap whose
class-0 list head is a used block (list heads are never inspected), and
reports nothing on a heap whose class-0 list is empty while class 1 links a
used block as a non-head element (the `break` aborts the whole scan at the
first empty class list), although in both heaps a block reachable through a
class list has its in-use bit set. -/
theorem c9_checker_misses_reachable_used_blocks :
    (mm_check headBugHeap).2 = [] ∧
    0 ∈ headBugHeap.table.getD 0 [] ∧ usedAt headBugHeap 0 = true ∧
    (mm_check breakBugHeap).2 = [] ∧
    32 ∈ breakBugHeap.table.getD 1 [] ∧ usedAt breakBugHeap 32 = true := by
  decide

/-! ## Helper lemmas for the allocation path -/

theorem mallocLoopGo_some (hp : Heap) (need : Nat) :
    ∀ (fuel c : Nat) {ca : Nat × Nat}, mallocLoopGo hp need c fuel = some ca →
      ca.1 < c + fuel ∧ c ≤ ca.1 ∧ search_free_list hp (ca.1 : Int) need = some ca.2 := by
  intro fuel
  induction fuel with
  | zero => intro c ca h; simp [mallocLoopGo] at h
  | succ n ih =>
    intro c ca h
    simp only [mallocLoopGo] at h
    rcases hs : search_free_list hp (c : Int) need with _ | a
    · rw [hs] at h
      obtain ⟨h1, h2, h3⟩ := ih (c + 1) h
      exact ⟨by omega, by omega, h3⟩
    · rw [hs] at h
      injection h with h
      subst h
      exact ⟨by omega, le_refl c, hs⟩

theorem mallocLoop_some {hp : Heap} {need c : Nat} {ca : Nat × Nat}
    (h : mallocLoop hp need c = some ca) :
    ca.1 < 20 ∧ c ≤ ca.1 ∧ search_free_list hp (ca.1 : Int) need = some ca.2 := by
  obtain ⟨h1, h2, h3⟩ := mallocLoopGo_some hp need (20 - c) c h
  exact ⟨by omega, h2, h3⟩

theorem search_mem {hp : Heap} {c : Nat} {need a : Nat} (hc : c < 20)
    (h : search_free_list hp (c : Int) need = some a) :
    a ∈ hp.table.getD c [] ∧ need ≤ sizeAt hp a := by
  have hspec := (search_free_list_spec hp (c : Int) need (by omega)
    (by exact_mod_cast hc)).1 a h
  have htn : ((c : Int)).toNat = c := Int.toNat_natCast c
  rw [htn] at hspec
  exact ⟨hspec.1, hspec.2.1⟩

theorem Wf.free_of_mem {hp : Heap} (hw : Wf hp) {c a : Nat} (hc : c < 20)
    (ha : a ∈ hp.table.getD c []) :
    usedAt hp a = false ∧ getClass (sizeAt hp a) = c ∧ existsAt hp a = true := by
  obtain ⟨hex, hus, hcl⟩ := hw.listMem c (List.mem_range.mpr hc) a ha
  exact ⟨hus, hcl, hex⟩

theorem wf_locate_facts {hp : Heap} (hw : Wf hp) {a : Nat} {pre : List Block} {b : Block}
    {post : List Block} (hloc : locate hp.blocks a = some (pre, b, post)) :
    (∀ x ∈ pre, 0 < x.size) ∧ 0 < b.size ∧ (∀ x ∈ post, 0 < x.size) ∧
      a = blockSum pre ∧ hp.blocks = pre ++ b :: post := by
  obtain ⟨hl, haddr⟩ := locate_decomp hloc
  have hpos := hw.posSizes
  refine ⟨fun x hx => hpos x (by rw [hl]; simp [hx]), hpos b (by rw [hl]; simp),
    fun x hx => hpos x (by rw [hl]; simp [hx]), haddr, hl⟩

/-! ## Claim C4 -/

/-- C4: whenever the free-list search of `mm_malloc` (needed size
`need = max(MIN_BLOCK_SIZE, align8(size + header + footer))`) returns a
candidate block `B` at address `a` on list `c`: if `size(B) − need ≤
MIN_BLOCK_SIZE = 32` then the allocator marks `B` used in both header and
footer, unlinks `B` from list `c`, and returns `B` whole; otherwise it
splits `B` into a used block of exactly `need` bytes and a free remainder
of `size(B) − need` bytes whose header and footer are written with the
in-use bit clear, the remainder is pushed on the front of the list of its
own class, and the last-block pointer moves to the remainder exactly when
`B` was the last block. -/
theorem c4_malloc_placement (hp : Heap) (size : Nat) (ok : Bool) (c a : Nat)
    (pre : List Block) (b : Block) (post : List Block) (hw : Wf hp) (hs : size ≠ 0)
    (hloop : mallocLoop hp (max 32 (align (size + 16)))
      (getClass (max 32 (align (size + 16)))) = some (c, a))
    (hloc : locate hp.blocks a = some (pre, b, post)) :
    (mm_malloc hp size ok).1 = some a ∧
    (b.size - max 32 (align (size + 16)) ≤ 32 →
      usedAt (mm_malloc hp size ok).2 a = true ∧
      fusedAt (mm_malloc hp size ok).2 a = true ∧
      sizeAt (mm_malloc hp size ok).2 a = b.size ∧
      fsizeAt (mm_malloc hp size ok).2 a = b.size ∧
      dataAt (mm_malloc hp size ok).2 a = b.data ∧
      (mm_malloc hp size ok).2.table.getD c [] = (hp.table.getD c []).erase a ∧
      (∀ c', c' ≠ c → (mm_malloc hp size ok).2.table.getD c' [] = hp.table.getD c' []) ∧
      (mm_malloc hp size ok).2.endHeap = hp.endHeap ∧
      (mm_malloc hp size ok).2.blocks =
        pre ++ { b with used := true, fsize := b.size, fused := true } :: post) ∧
    (32 < b.size - max 32 (align (size + 16)) →
      usedAt (mm_malloc hp size ok).2 a = true ∧
      fusedAt (mm_malloc hp size ok).2 a = true ∧
      sizeAt (mm_malloc hp size ok).2 a = max 32 (align (size + 16)) ∧
      fsizeAt (mm_malloc hp size ok).2 a = max 32 (align (size + 16)) ∧
      usedAt (mm_malloc hp size ok).2 (a + max 32 (align (size + 16))) = false ∧
      fusedAt (mm_malloc hp size ok).2 (a + max 32 (align (size + 16))) = false ∧
      sizeAt (mm_malloc hp size ok).2 (a + max 32 (align (size + 16))) =
        b.size - max 32 (align (size + 16)) ∧
      fsizeAt (mm_malloc hp size ok).2 (a + max 32 (align (size + 16))) =
        b.size - max 32 (align (size + 16)) ∧
      ((mm_malloc hp size ok).2.table.getD
          (getClass (b.size - max 32 (align (size + 16)))) []).head? =
        some (a + max 32 (align (size + 16))) ∧
      (mm_malloc hp size ok).2.endHeap =
        (if hp.endHeap = a then a + max 32 (align (size + 16)) else hp.endHeap)) := by
  obtain ⟨hc20, _, hsearch⟩ := mallocLoop_some hloop
  obtain ⟨hmem, hneed⟩ := search_mem hc20 hsearch
  obtain ⟨hfreeAt, hclassAt, _⟩ := hw.free_of_mem hc20 hmem
  obtain ⟨hpre, hbpos, hpost, haddr, hblocks⟩ := wf_locate_facts hw hloc
  have hsz : sizeAt hp a = b.size := sizeAt_of_locate hloc
  have hbu : b.used = false := by rw [usedAt_of_locate hloc] at hfreeAt; exact hfreeAt
  have hbc : getClass b.size = c := by rw [hsz] at hclassAt; exact hclassAt
  have htl : hp.table.length = 20 := hw.tableLen
  have hns32 : 32 ≤ max 32 (align (size + 16)) := le_max_left _ _
  by_cases hrem : b.size - max 32 (align (size + 16)) ≤ 32
  · -- use the whole block
    have hred : mm_malloc hp size ok =
        (some a, remove_from_free_list
          { hp with blocks :=
              pre ++ { b with used := true, fsize := b.size, fused := true } :: post } c a) := by
      simp only [mm_malloc, if_neg hs, hloop, hloc]
      simp [hrem]
    have hba : blockAt (mm_malloc hp size ok).2 a =
        some { b with used := true, fsize := b.size, fused := true } := by
      rw [hred]
      show blockAtL (pre ++ { b with used := true, fsize := b.size, fused := true } :: post) a
        = _
      rw [haddr]
      exact blockAtL_append_at pre hpre _ post
    refine ⟨by rw [hred], fun _ => ?_, fun h => absurd h (by omega)⟩
    refine ⟨usedAt_of_blockAt hba, fusedAt_of_blockAt hba, by rw [sizeAt_of_blockAt hba],
      by rw [fsizeAt_of_blockAt hba], by rw [dataAt_of_blockAt hba], ?_, ?_,
      by rw [hred]; rfl, by rw [hred]; rfl⟩
    · rw [hred]
      exact getD_tableModify_self _ hp.table c (by omega)
    · intro c' hc'
      rw [hred]
      exact getD_tableModify_other _ hp.table c c' (fun h => hc' h.symm)
  · -- split the block
    have hred : mm_malloc hp size ok =
        (some a, split hp a (max 32 (align (size + 16)))) := by
      simp only [mm_malloc, if_neg hs, hloop, hloc]
      simp [hrem]
    set ns := max 32 (align (size + 16)) with hnsdef
    set remaining := b.size - ns with hremdef
    set left : Block :=
      { size := ns, used := true, fsize := ns, fused := true,
        data := b.data.take (ns - 16) } with hleftdef
    set right : Block :=
      { size := remaining, used := false, fsize := remaining, fused := false,
        data := b.data.drop ns } with hrightdef
    have hcr : getClass remaining ≤ c := by
      rw [← hbc]
      exact getClass_mono (by omega)
    have hsplit : split hp a ns =
        put_on_front_of_class_list
          { hp with
            table := tableModify hp.table (getClass b.size) (fun l => l.erase a),
            blocks := pre ++ left :: right :: post,
            endHeap := if hp.endHeap = a then a + ns else hp.endHeap }
          (getClass remaining) (a + ns) := by
      simp only [split, hloc, hbu, if_neg (by simp : ¬False)]
      rfl
    have hput : ∀ h2 : Heap, put_on_front_of_class_list h2 (getClass remaining) (a + ns) =
        { h2 with table := tableModify h2.table (getClass remaining) (fun l => (a + ns) :: l) } := by
      intro h2
      unfold put_on_front_of_class_list
      rw [if_neg (by omega)]
      simp [Int.toNat_natCast]
    have hblocksr : (mm_malloc hp size ok).2.blocks = pre ++ left :: right :: post := by
      rw [hred, hsplit, hput]
    have hba : blockAt (mm_malloc hp size ok).2 a = some left := by
      show blockAtL (mm_malloc hp size ok).2.blocks a = _
      rw [hblocksr, haddr]
      exact blockAtL_append_at pre hpre left (right :: post)
    have hbar : blockAt (mm_malloc hp size ok).2 (a + ns) = some right := by
      show blockAtL (mm_malloc hp size ok).2.blocks (a + ns) = _
      rw [hblocksr]
      have hshape : pre ++ left :: right :: post = (pre ++ [left]) ++ right :: post := by
        simp
      have haddr2 : a + ns = blockSum (pre ++ [left]) := by
        simp [haddr, hleftdef]
      rw [hshape, haddr2]
      refine blockAtL_append_at (pre ++ [left]) ?_ right post
      intro x hx
      rcases List.mem_append.mp hx with hx | hx
      · exact hpre x hx
      · simp at hx
        subst hx
        simp [hleftdef]
        omega
    have htable : (mm_malloc hp size ok).2.table =
        tableModify (tableModify hp.table (getClass b.size) (fun l => l.erase a))
          (getClass remaining) (fun l => (a + ns) :: l) := by
      rw [hred, hsplit, hput]
    refine ⟨by rw [hred], fun h => absurd h (by omega), fun _ => ?_⟩
    refine ⟨usedAt_of_blockAt hba, fusedAt_of_blockAt hba, by rw [sizeAt_of_blockAt hba],
      by rw [fsizeAt_of_blockAt hba], usedAt_of_blockAt hbar, fusedAt_of_blockAt hbar,
      by rw [sizeAt_of_blockAt hbar], by rw [fsizeAt_of_blockAt hbar], ?_, ?_⟩
    · rw [htable]
      rw [getD_tableModify_self _ _ (getClass remaining)
        (by rw [length_tableModify, htl]; omega)]
      simp
    · rw [hred, hsplit, hput]

/-- A free 80-byte block (class 1). -/
def splitFreeBlock : Block :=
  { size := 80, used := false, fsize := 80, fused := false, data := List.replicate 64 0 }

/-- A heap holding one free 80-byte block linked on class list 1. -/
def splitHeap : Heap :=
  { blocks := [splitFreeBlock],
    table := [] :: [0] :: List.replicate 18 [],
    endHeap := 0 }

theorem c4_malloc_placement_witness :
    Wf splitHeap ∧ (8 : Nat) ≠ 0 ∧
    mallocLoop splitHeap (max 32 (align (8 + 16)))
      (getClass (max 32 (align (8 + 16)))) = some (1, 0) ∧
    locate splitHeap.blocks 0 = some ([], splitFreeBlock, []) ∧
    (mm_malloc splitHeap 8 true).1 = some 0 ∧
    sizeAt (mm_malloc splitHeap 8 true).2 0 = 32 ∧
    usedAt (mm_malloc splitHeap 8 true).2 0 = true ∧
    sizeAt (mm_malloc splitHeap 8 true).2 32 = 48 ∧
    usedAt (mm_malloc splitHeap 8 true).2 32 = false := by
  have happ := c4_malloc_placement splitHeap 8 true 1 0 [] splitFreeBlock []
    (by decide) (by decide) (by decide) (by decide)
  have hsplit := happ.2.2 (by decide)
  refine ⟨by decide, by decide, by decide, by decide, happ.1, ?_, hsplit.1, ?_,
    hsplit.2.2.2.2.1⟩
  · exact hsplit.2.2.1.trans (by decide)
  · exact hsplit.2.2.2.2.2.2.1.trans (by decide)

/-! ## Walk and removal lemmas -/

@[simp] theorem blockSum_reverse (l : List Block) : blockSum l.reverse = blockSum l := by
  simp [blockSum, List.sum_reverse]

theorem walkLeft_decomp : ∀ (preRev : List Block) (ia : Nat),
    ((walkLeft ia preRev).1.map Prod.snd) ++ (walkLeft ia preRev).2.1 = preRev ∧
    (walkLeft ia preRev).2.2 = ia - blockSum ((walkLeft ia preRev).1.map Prod.snd) ∧
    (∀ x ∈ (walkLeft ia preRev).1, x.2.used = false ∧ 255 < x.2.size) := by
  intro preRev
  induction preRev with
  | nil => intro ia; simp [walkLeft]
  | cons lb rest ih =>
    intro ia
    by_cases h0 : ia = 0
    · simp [walkLeft, h0]
    · by_cases hu : lb.used
      · simp [walkLeft, h0, hu]
      · by_cases hs : lb.size ≤ 255
        · simp [walkLeft, h0, hu, hs]
        · have hred : walkLeft ia (lb :: rest) =
              ((ia - lb.size, lb) :: (walkLeft (ia - lb.size) rest).1,
               (walkLeft (ia - lb.size) rest).2.1, (walkLeft (ia - lb.size) rest).2.2) := by
            simp [walkLeft, h0, hu, hs]
          obtain ⟨ih1, ih2, ih3⟩ := ih (ia - lb.size)
          rw [hred]
          have hproj : ((ia - lb.size, lb) : Nat × Block).2 = lb := rfl
          refine ⟨by simpa using ih1, ?_, ?_⟩
          · simp only [List.map_cons, blockSum_cons, hproj, ih2]
            omega
          · intro x hx
            rcases List.mem_cons.mp hx with rfl | hx'
            · exact ⟨by show lb.used = false; simpa using hu, by show 255 < lb.size; omega⟩
            · exact ih3 x hx'

theorem walkRight_decomp (eh : Nat) : ∀ (post : List Block) (ia csz : Nat),
    ((walkRight eh ia csz post).1.map Prod.snd) ++ (walkRight eh ia csz post).2.1 = post ∧
    (∀ x ∈ (walkRight eh ia csz post).1, x.2.used = false ∧ 255 < x.2.size) := by
  intro post
  induction post with
  | nil => intro ia csz; simp [walkRight]
  | cons nb rest ih =>
    intro ia csz
    by_cases h0 : ia = eh
    · simp [walkRight, h0]
    · by_cases hu : nb.used
      · simp [walkRight, h0, hu]
      · by_cases hs : nb.size ≤ 255
        · simp [walkRight, h0, hu, hs]
        · have hred : walkRight eh ia csz (nb :: rest) =
              ((ia + csz, nb) :: (walkRight eh (ia + csz) nb.size rest).1,
               (walkRight eh (ia + csz) nb.size rest).2.1,
               (walkRight eh (ia + csz) nb.size rest).2.2) := by
            simp [walkRight, h0, hu, hs]
          obtain ⟨ih1, ih2⟩ := ih (ia + csz) nb.size
          rw [hred]
          refine ⟨by simpa using ih1, ?_⟩
          intro x hx
          rcases List.mem_cons.mp hx with rfl | hx'
          · exact ⟨by show nb.used = false; simpa using hu, by show 255 < nb.size; omega⟩
          · exact ih2 x hx'

theorem absorbWalk_decomp (eh : Nat) : ∀ (post : List Block) (ia csz diff total : Nat),
    ((absorbWalk eh ia csz post diff total).1.map Prod.snd) ++
      (absorbWalk eh ia csz post diff total).2.1 = post ∧
    (∀ x ∈ (absorbWalk eh ia csz post diff total).1, x.2.used = false) := by
  intro post
  induction post with
  | nil => intro ia csz diff total; simp [absorbWalk]
  | cons nb rest ih =>
    intro ia csz diff total
    by_cases h0 : ia = eh
    · simp [absorbWalk, h0]
    · by_cases hu : nb.used
      · simp [absorbWalk, h0, hu]
      · by_cases hd : diff ≤ total + nb.size
        · have hred : absorbWalk eh ia csz (nb :: rest) diff total =
              ([(ia + csz, nb)], rest, ia + csz) := by
            simp [absorbWalk, h0, hu, hd]
          rw [hred]
          refine ⟨by simp, ?_⟩
          intro x hx
          simp only [List.mem_singleton] at hx
          subst hx
          simpa using hu
        · have hred : absorbWalk eh ia csz (nb :: rest) diff total =
              ((ia + csz, nb) :: (absorbWalk eh (ia + csz) nb.size rest diff (total + nb.size)).1,
               (absorbWalk eh (ia + csz) nb.size rest diff (total + nb.size)).2.1,
               (absorbWalk eh (ia + csz) nb.size rest diff (total + nb.size)).2.2) := by
            simp [absorbWalk, h0, hu, hd]
          obtain ⟨ih1, ih2⟩ := ih (ia + csz) nb.size diff (total + nb.size)
          rw [hred]
          refine ⟨by simpa using ih1, ?_⟩
          intro x hx
          rcases List.mem_cons.mp hx with rfl | hx'
          · simpa using hu
          · exact ih2 x hx'

theorem walkLeft_mem {blocks : List Block} (hsz : ∀ x ∈ blocks, 0 < x.size) :
    ∀ (preRev : List Block) (ia : Nat) (suf : List Block),
      blocks = preRev.reverse ++ suf → ia = blockSum preRev.reverse →
      ∀ x ∈ (walkLeft ia preRev).1, blockAtL blocks x.1 = some x.2 := by
  intro preRev
  induction preRev with
  | nil => intro ia suf hb hia x hx; simp [walkLeft] at hx
  | cons lb rest ih =>
    intro ia suf hb hia x hx
    have hb' : blocks = rest.reverse ++ (lb :: suf) := by
      rw [hb]; simp
    have hia' : ia - lb.size = blockSum rest.reverse := by
      rw [hia]; simp [blockSum_append]
    by_cases h0 : ia = 0
    · simp [walkLeft, h0] at hx
    · by_cases hu : lb.used
      · simp [walkLeft, h0, hu] at hx
      · by_cases hs : lb.size ≤ 255
        · simp [walkLeft, h0, hu, hs] at hx
        · have hred : (walkLeft ia (lb :: rest)).1 =
              (ia - lb.size, lb) :: (walkLeft (ia - lb.size) rest).1 := by
            simp [walkLeft, h0, hu, hs]
          rw [hred] at hx
          rcases List.mem_cons.mp hx with rfl | hx'
          · show blockAtL blocks (ia - lb.size) = some lb
            rw [hb', hia']
            refine blockAtL_append_at rest.reverse ?_ lb suf
            intro y hy
            exact hsz y (by rw [hb']; exact List.mem_append.mpr (Or.inl hy))
          · exact ih (ia - lb.size) (lb :: suf) hb' hia' x hx'

theorem walkRight_mem {blocks : List Block} (hsz : ∀ x ∈ blocks, 0 < x.size) (eh : Nat) :
    ∀ (post : List Block) (ia csz : Nat) (pre : List Block) (cur : Block),
      blocks = pre ++ cur :: post → ia = blockSum pre → csz = cur.size →
      ∀ x ∈ (walkRight eh ia csz post).1, blockAtL blocks x.1 = some x.2 := by
  intro post
  induction post with
  | nil => intro ia csz pre cur hb hia hcsz x hx; simp [walkRight] at hx
  | cons nb rest ih =>
    intro ia csz pre cur hb hia hcsz x hx
    have hb' : blocks = (pre ++ [cur]) ++ nb :: rest := by
      rw [hb]; simp
    have hia' : ia + csz = blockSum (pre ++ [cur]) := by
      rw [hia, hcsz]; simp [blockSum_append]
    by_cases h0 : ia = eh
    · simp [walkRight, h0] at hx
    · by_cases hu : nb.used
      · simp [walkRight, h0, hu] at hx
      · by_cases hs : nb.size ≤ 255
        · simp [walkRight, h0, hu, hs] at hx
        · have hred : (walkRight eh ia csz (nb :: rest)).1 =
              (ia + csz, nb) :: (walkRight eh (ia + csz) nb.size rest).1 := by
            simp [walkRight, h0, hu, hs]
          rw [hred] at hx
          rcases List.mem_cons.mp hx with rfl | hx'
          · show blockAtL blocks (ia + csz) = some nb
            rw [hb', hia']
            refine blockAtL_append_at (pre ++ [cur]) ?_ nb rest
            intro y hy
            exact hsz y (by rw [hb']; exact List.mem_append.mpr (Or.inl hy))
          · exact ih (ia + csz) nb.size (pre ++ [cur]) nb hb' hia' rfl x hx'

theorem absorbWalk_mem {blocks : List Block} (hsz : ∀ x ∈ blocks, 0 < x.size) (eh : Nat) :
    ∀ (post : List Block) (ia csz diff total : Nat) (pre : List Block) (cur : Block),
      blocks = pre ++ cur :: post → ia = blockSum pre → csz = cur.size →
      ∀ x ∈ (absorbWalk eh ia csz post diff total).1, blockAtL blocks x.1 = some x.2 := by
  intro post
  induction post with
  | nil => intro ia csz diff total pre cur hb hia hcsz x hx; simp [absorbWalk] at hx
  | cons nb rest ih =>
    intro ia csz diff total pre cur hb hia hcsz x hx
    have hb' : blocks = (pre ++ [cur]) ++ nb :: rest := by
      rw [hb]; simp
    have hia' : ia + csz = blockSum (pre ++ [cur]) := by
      rw [hia, hcsz]; simp [blockSum_append]
    have hhead : blockAtL blocks (ia + csz) = some nb := by
      rw [hb', hia']
      refine blockAtL_append_at (pre ++ [cur]) ?_ nb rest
      intro y hy
      exact hsz y (by rw [hb']; exact List.mem_append.mpr (Or.inl hy))
    by_cases h0 : ia = eh
    · simp [absorbWalk, h0] at hx
    · by_cases hu : nb.used
      · simp [absorbWalk, h0, hu] at hx
      · by_cases hd : diff ≤ total + nb.size
        · have hred : (absorbWalk eh ia csz (nb :: rest) diff total).1 = [(ia + csz, nb)] := by
            simp [absorbWalk, h0, hu, hd]
          rw [hred] at hx
          simp only [List.mem_singleton] at hx
          subst hx
          exact hhead
        · have hred : (absorbWalk eh ia csz (nb :: rest) diff total).1 =
              (ia + csz, nb) ::
                (absorbWalk eh (ia + csz) nb.size rest diff (total + nb.size)).1 := by
            simp [absorbWalk, h0, hu, hd]
          rw [hred] at hx
          rcases List.mem_cons.mp hx with rfl | hx'
          · exact hhead
          · exact ih (ia + csz) nb.size diff (total + nb.size) (pre ++ [cur]) nb hb' hia'
              rfl x hx'

theorem simWalk_ne (eh : Nat) {post : List Block} {ia csz diff total : Nat}
    (h : simWalk eh ia csz post diff total = true) : ia ≠ eh := by
  cases post with
  | nil => simp [simWalk] at h
  | cons nb rest =>
    intro heq
    rw [simWalk, if_pos heq] at h
    exact absurd h (by simp)

theorem simWalk_absorb (eh : Nat) : ∀ (post : List Block) (ia csz diff total : Nat),
    simWalk eh ia csz post diff total = true →
      (absorbWalk eh ia csz post diff total).1 ≠ [] ∧
      diff ≤ total + blockSum ((absorbWalk eh ia csz post diff total).1.map Prod.snd) := by
  intro post
  induction post with
  | nil => intro ia csz diff total h; simp [simWalk] at h
  | cons nb rest ih =>
    intro ia csz diff total h
    by_cases h0 : ia = eh
    · rw [simWalk, if_pos h0] at h
      exact absurd h (by simp)
    · rw [simWalk, if_neg h0] at h
      by_cases hu : nb.used
      · rw [if_pos hu] at h
        exact absurd h (by simp)
      · rw [if_neg hu] at h
        by_cases hd : diff ≤ total + nb.size
        · have hred : absorbWalk eh ia csz (nb :: rest) diff total =
              ([(ia + csz, nb)], rest, ia + csz) := by
            simp [absorbWalk, h0, hu, hd]
          rw [hred]
          refine ⟨by simp, ?_⟩
          simp only [List.map_cons, List.map_nil, blockSum_cons, blockSum_nil]
          omega
        · rw [if_neg hd] at h
          have hred : absorbWalk eh ia csz (nb :: rest) diff total =
              ((ia + csz, nb) :: (absorbWalk eh (ia + csz) nb.size rest diff (total + nb.size)).1,
               (absorbWalk eh (ia + csz) nb.size rest diff (total + nb.size)).2.1,
               (absorbWalk eh (ia + csz) nb.size rest diff (total + nb.size)).2.2) := by
            simp [absorbWalk, h0, hu, hd]
          obtain ⟨ih1, ih2⟩ := ih (ia + csz) nb.size diff (total + nb.size) h
          rw [hred]
          refine ⟨by simp, ?_⟩
          simp only [List.map_cons, blockSum_cons]
          omega

/-! ## Free-list removal lemmas -/

theorem remove_table_getD_self {hp : Heap} {c : Nat} (a : Nat) (h : c < hp.table.length) :
    (remove_from_free_list hp c a).table.getD c [] = (hp.table.getD c []).erase a :=
  getD_tableModify_self _ hp.table c h

theorem remove_table_getD_other {hp : Heap} {c c' : Nat} (a : Nat) (h : c ≠ c') :
    (remove_from_free_list hp c a).table.getD c' [] = hp.table.getD c' [] :=
  getD_tableModify_other _ hp.table c c' h

theorem remove_table_oob {hp : Heap} {c : Nat} (a : Nat) (h : hp.table.length ≤ c) :
    (remove_from_free_list hp c a).table = hp.table :=
  tableModify_oob _ hp.table c h

theorem remove_notMem {hp : Heap} (c0 y : Nat) {c x : Nat}
    (h : x ∉ hp.table.getD c []) :
    x ∉ (remove_from_free_list hp c0 y).table.getD c [] := by
  by_cases hlen : c0 < hp.table.length
  · by_cases hc : c0 = c
    · subst hc
      rw [remove_table_getD_self y hlen]
      intro hm
      exact h (List.mem_of_mem_erase hm)
    · rw [remove_table_getD_other y hc]
      exact h
  · rw [remove_table_oob y (by omega)]
    exact h

theorem remove_nodup {hp : Heap} (c0 y : Nat)
    (h : ∀ c, (hp.table.getD c []).Nodup) :
    ∀ c, ((remove_from_free_list hp c0 y).table.getD c []).Nodup := by
  intro c
  by_cases hlen : c0 < hp.table.length
  · by_cases hc : c0 = c
    · subst hc
      rw [remove_table_getD_self y hlen]
      exact (h c0).erase y
    · rw [remove_table_getD_other y hc]
      exact h c
  · rw [remove_table_oob y (by omega)]
    exact h c

theorem removeAll_cons (hp : Heap) (x : Nat × Block) (l : List (Nat × Block)) :
    removeAll hp (x :: l) =
      removeAll (remove_from_free_list hp (getClass x.2.size) x.1) l := rfl

theorem removeAll_blocks : ∀ (l : List (Nat × Block)) (hp : Heap),
    (removeAll hp l).blocks = hp.blocks := by
  intro l
  induction l with
  | nil => intro hp; rfl
  | cons x rest ih =>
    intro hp
    rw [removeAll_cons]
    exact ih _

theorem removeAll_endHeap : ∀ (l : List (Nat × Block)) (hp : Heap),
    (removeAll hp l).endHeap = hp.endHeap := by
  intro l
  induction l with
  | nil => intro hp; rfl
  | cons x rest ih =>
    intro hp
    rw [removeAll_cons]
    exact ih _

theorem removeAll_tableLen : ∀ (l : List (Nat × Block)) (hp : Heap),
    (removeAll hp l).table.length = hp.table.length := by
  intro l
  induction l with
  | nil => intro hp; rfl
  | cons x rest ih =>
    intro hp
    rw [removeAll_cons, ih]
    exact length_tableModify _ hp.table _

theorem removeAll_notMem : ∀ (l : List (Nat × Block)) (hp : Heap) {c x : Nat},
    x ∉ hp.table.getD c [] → x ∉ (removeAll hp l).table.getD c [] := by
  intro l
  induction l with
  | nil => intro hp c x h; exact h
  | cons y rest ih =>
    intro hp c x h
    rw [removeAll_cons]
    exact ih _ (remove_notMem _ _ h)

theorem removeAll_perNodup : ∀ (l : List (Nat × Block)) (hp : Heap),
    (∀ c, (hp.table.getD c []).Nodup) →
    ∀ c, ((removeAll hp l).table.getD c []).Nodup := by
  intro l
  induction l with
  | nil => intro hp h; exact h
  | cons y rest ih =>
    intro hp h
    rw [removeAll_cons]
    exact ih _ (remove_nodup _ _ h)

theorem removeAll_kill : ∀ (l : List (Nat × Block)) (hp : Heap),
    (∀ c, (hp.table.getD c []).Nodup) →
    ∀ x blk, (x, blk) ∈ l → x ∉ (removeAll hp l).table.getD (getClass blk.size) [] := by
  intro l
  induction l with
  | nil => intro hp _ x blk h; simp at h
  | cons y rest ih =>
    intro hp hnod x blk hmem
    rcases List.mem_cons.mp hmem with rfl | hmem'
    · rw [removeAll_cons]
      refine removeAll_notMem rest _ ?_
      by_cases hlen : getClass blk.size < hp.table.length
      · have hself := remove_table_getD_self x hlen
        simp only at hself
        rw [hself]
        intro hm
        exact absurd (((hnod _).mem_erase_iff).mp hm).1 (by simp)
      · have hoob := @remove_table_oob hp (getClass blk.size) x (by omega)
        simp only at hoob
        rw [hoob]
        rw [List.getD_eq_default _ _ (by omega)]
        simp
    · rw [removeAll_cons]
      exact ih _ (remove_nodup _ _ hnod) x blk hmem'

theorem nodup_getD_of_flatten : ∀ {t : List (List Nat)}, t.flatten.Nodup →
    ∀ c, (t.getD c []).Nodup := by
  intro t
  induction t with
  | nil => intro _ c; simp
  | cons x xs ih =>
    intro h c
    rw [List.flatten_cons] at h
    cases c with
    | zero => exact h.of_append_left
    | succ n => exact ih h.of_append_right n

/-- Mark-free rewriting. -/
theorem markFreeAt_eq {hp : Heap} {a : Nat} {pre : List Block} {b : Block}
    {post : List Block} (hloc : locate hp.blocks a = some (pre, b, post)) :
    markFreeAt hp a =
      { hp with blocks :=
          pre ++ { b with used := false, fsize := b.size, fused := false } :: post } := by
  simp [markFreeAt, hloc]

/-! ## Coalesce and push lemmas -/

theorem put_blocks (h2 : Heap) (c : Int) (a : Nat) :
    (put_on_front_of_class_list h2 c a).blocks = h2.blocks ∧
    (put_on_front_of_class_list h2 c a).endHeap = h2.endHeap := by
  unfold put_on_front_of_class_list
  split <;> exact ⟨rfl, rfl⟩

theorem put_getD_eq {h2 : Heap} {c : Nat} (a : Nat) (hc : c < 20)
    (hlen : h2.table.length = 20) :
    (put_on_front_of_class_list h2 (c : Int) a).table.getD c [] =
      a :: h2.table.getD c [] ∧
    ∀ c', c' ≠ c →
      (put_on_front_of_class_list h2 (c : Int) a).table.getD c' [] =
        h2.table.getD c' [] := by
  unfold put_on_front_of_class_list
  rw [if_neg (by omega)]
  constructor
  · simp only [Int.toNat_natCast]
    exact getD_tableModify_self _ _ c (by omega)
  · intro c' hc'
    simp only [Int.toNat_natCast]
    exact getD_tableModify_other _ _ _ _ (fun h => hc' h.symm)

theorem put_oob {h2 : Heap} {c : Nat} (a : Nat) (hc : 20 ≤ c) :
    put_on_front_of_class_list h2 (c : Int) a = h2 := by
  unfold put_on_front_of_class_list
  rw [if_pos (by omega)]

theorem coalesce_eq {hp : Heap} {a : Nat} {pre : List Block} {b : Block} {post : List Block}
    (hloc : locate hp.blocks a = some (pre, b, post)) :
    coalesce hp a =
      ((walkLeft a pre.reverse).2.2,
       { removeAll hp ((walkRight hp.endHeap a b.size post).1 ++ (walkLeft a pre.reverse).1) with
         blocks := (walkLeft a pre.reverse).2.1.reverse ++
           mergeBlocks ((walkLeft a pre.reverse).1.reverse.map Prod.snd ++
             b :: (walkRight hp.endHeap a b.size post).1.map Prod.snd) false ::
           (walkRight hp.endHeap a b.size post).2.1,
         endHeap := if hp.endHeap = (walkRight hp.endHeap a b.size post).2.2
           then (walkLeft a pre.reverse).2.2 else hp.endHeap }) := by
  simp only [coalesce, hloc]

theorem coalesce_result {hp : Heap} {a : Nat} {pre : List Block} {b : Block}
    {post : List Block} (hsz : ∀ x ∈ hp.blocks, 0 < x.size)
    (hloc : locate hp.blocks a = some (pre, b, post)) :
    blockAt (coalesce hp a).2 (coalesce hp a).1 =
      some (mergeBlocks ((walkLeft a pre.reverse).1.reverse.map Prod.snd ++
        b :: (walkRight hp.endHeap a b.size post).1.map Prod.snd) false) ∧
    (coalesce hp a).2.table =
      (removeAll hp
        ((walkRight hp.endHeap a b.size post).1 ++ (walkLeft a pre.reverse).1)).table ∧
    (coalesce hp a).2.table.length = hp.table.length ∧
    b.size ≤ sizeAt (coalesce hp a).2 (coalesce hp a).1 := by
  obtain ⟨hl, haddr⟩ := locate_decomp hloc
  obtain ⟨hdec, hfin, _⟩ := walkLeft_decomp pre.reverse a
  have hsum : blockSum ((walkLeft a pre.reverse).1.map Prod.snd) +
      blockSum (walkLeft a pre.reverse).2.1 = blockSum pre := by
    have := congrArg blockSum hdec
    simp only [blockSum_append] at this
    rw [this]
    simp
  have hfin' : (walkLeft a pre.reverse).2.2 =
      blockSum ((walkLeft a pre.reverse).2.1.reverse) := by
    rw [hfin, blockSum_reverse]
    omega
  have hrestpos : ∀ x ∈ (walkLeft a pre.reverse).2.1.reverse, 0 < x.size := by
    intro x hx
    have hx1 : x ∈ (walkLeft a pre.reverse).2.1 := List.mem_reverse.mp hx
    have hx2 : x ∈ pre.reverse := by
      rw [← hdec]
      exact List.mem_append.mpr (Or.inr hx1)
    exact hsz x (by rw [hl]; exact List.mem_append.mpr (Or.inl (List.mem_reverse.mp hx2)))
  have hba : blockAt (coalesce hp a).2 (coalesce hp a).1 =
      some (mergeBlocks ((walkLeft a pre.reverse).1.reverse.map Prod.snd ++
        b :: (walkRight hp.endHeap a b.size post).1.map Prod.snd) false) := by
    rw [coalesce_eq hloc]
    show blockAtL _ _ = _
    simp only
    rw [hfin']
    exact blockAtL_append_at _ hrestpos _ _
  refine ⟨hba, ?_, ?_, ?_⟩
  · rw [coalesce_eq hloc]
  · rw [coalesce_eq hloc]
    exact removeAll_tableLen _ _
  · rw [sizeAt_of_blockAt hba]
    simp only [mergeBlocks, blockSum_append, blockSum_cons]
    omega

theorem mm_free_some_eq (hp : Heap) (a : Nat) :
    mm_free hp (some a) =
      (if 2 < getClass (sizeAt hp a) then
        put_on_front_of_class_list (coalesce (markFreeAt hp a) a).2
          (getClass (sizeAt (coalesce (markFreeAt hp a) a).2 (coalesce (markFreeAt hp a) a).1))
          (coalesce (markFreeAt hp a) a).1
      else put_on_front_of_class_list (markFreeAt hp a) (getClass (sizeAt hp a)) a) := rfl

theorem walkLeft_fin_mem : ∀ (preRev : List Block) (ia : Nat),
    (walkLeft ia preRev).1 ≠ [] →
    ∃ blk, ((walkLeft ia preRev).2.2, blk) ∈ (walkLeft ia preRev).1 := by
  intro preRev
  induction preRev with
  | nil => intro ia h; simp [walkLeft] at h
  | cons lb rest ih =>
    intro ia h
    by_cases h0 : ia = 0
    · simp [walkLeft, h0] at h
    · by_cases hu : lb.used
      · simp [walkLeft, h0, hu] at h
      · by_cases hs : lb.size ≤ 255
        · simp [walkLeft, h0, hu, hs] at h
        · have hred : walkLeft ia (lb :: rest) =
              ((ia - lb.size, lb) :: (walkLeft (ia - lb.size) rest).1,
               (walkLeft (ia - lb.size) rest).2.1, (walkLeft (ia - lb.size) rest).2.2) := by
            simp [walkLeft, h0, hu, hs]
          rw [hred]
          by_cases hrec : (walkLeft (ia - lb.size) rest).1 = []
          · refine ⟨lb, ?_⟩
            have hfin : (walkLeft (ia - lb.size) rest).2.2 = ia - lb.size := by
              obtain ⟨_, hfin, _⟩ := walkLeft_decomp rest (ia - lb.size)
              rw [hfin, hrec]
              simp
            simp only [hfin]
            exact List.mem_cons_self _ _
          · obtain ⟨blk, hblk⟩ := ih (ia - lb.size) hrec
            exact ⟨blk, List.mem_cons_of_mem _ hblk⟩

/-! ## Claim C6 -/

/-- The heap after `init; allocate(33554416)`: a used giant block of
`64·2^19 = 33554432` bytes (class 20) at address 32. -/
def giantTrace : Heap := (mm_malloc initHeap 33554416 true).2

/-- The heap after freeing the giant block. -/
def giantFreed : Heap := mm_free giantTrace (some 32)

/-- C6 counterexample: freeing the used giant block at address 32 clears
its in-use bit but pushes it onto no class list — the class computed from
its size is 20, past the table — leaving every free list unchanged, so the
block is not "pushed onto the front of the class list computed from its
final size" as the claim states. -/
theorem c6_giant_free_not_pushed :
    usedAt giantTrace 32 = true ∧ 64 * 2 ^ 19 ≤ sizeAt giantTrace 32 ∧
    usedAt giantFreed 32 = false ∧ giantFreed.table = giantTrace.table ∧
    ∀ c, c < 20 → (32 : Nat) ∉ giantFreed.table.getD c [] := by
  decide

/-- C6 (amended): `mm_free` of a null pointer changes nothing; freeing a
used block clears the in-use bit in both header and footer, runs
`coalesce` exactly when the block size exceeds `MAX_DIM(LIMIT_COALESCE) =
255` bytes, and then pushes the resulting block onto the front of the
class list computed from its final (possibly merged) size provided that
class is below 20; a resulting block of class 20 (size at least `64·2^19`)
is linked into no list. -/
theorem c6_free_amended (hp : Heap) (a : Nat) (pre : List Block) (b : Block)
    (post : List Block) (hw : Wf hp) (hloc : locate hp.blocks a = some (pre, b, post))
    (hbu : b.used = true) :
    mm_free hp none = hp ∧
    mm_free hp (some a) =
      (if 255 < b.size then
        put_on_front_of_class_list (coalesce (markFreeAt hp a) a).2
          (getClass (sizeAt (coalesce (markFreeAt hp a) a).2 (coalesce (markFreeAt hp a) a).1))
          (coalesce (markFreeAt hp a) a).1
      else put_on_front_of_class_list (markFreeAt hp a) (getClass b.size) a) ∧
    (b.size ≤ 255 →
      usedAt (mm_free hp (some a)) a = false ∧
      fusedAt (mm_free hp (some a)) a = false ∧
      sizeAt (mm_free hp (some a)) a = b.size ∧
      fsizeAt (mm_free hp (some a)) a = b.size ∧
      (mm_free hp (some a)).table.getD (getClass b.size) [] =
        a :: hp.table.getD (getClass b.size) []) ∧
    (255 < b.size →
      usedAt (mm_free hp (some a)) (coalesce (markFreeAt hp a) a).1 = false ∧
      fusedAt (mm_free hp (some a)) (coalesce (markFreeAt hp a) a).1 = false ∧
      b.size ≤ sizeAt (mm_free hp (some a)) (coalesce (markFreeAt hp a) a).1 ∧
      (getClass (sizeAt (coalesce (markFreeAt hp a) a).2
          (coalesce (markFreeAt hp a) a).1) < 20 →
        (mm_free hp (some a)).table.getD
            (getClass (sizeAt (coalesce (markFreeAt hp a) a).2
              (coalesce (markFreeAt hp a) a).1)) [] =
          (coalesce (markFreeAt hp a) a).1 ::
            (coalesce (markFreeAt hp a) a).2.table.getD
              (getClass (sizeAt (coalesce (markFreeAt hp a) a).2
                (coalesce (markFreeAt hp a) a).1)) []) ∧
      (getClass (sizeAt (coalesce (markFreeAt hp a) a).2
          (coalesce (markFreeAt hp a) a).1) = 20 →
        (mm_free hp (some a)).table = (coalesce (markFreeAt hp a) a).2.table)) := by
  obtain ⟨hpre, hbpos, hpost, haddr, hblocks⟩ := wf_locate_facts hw hloc
  have hsa : sizeAt hp a = b.size := sizeAt_of_locate hloc
  have hiff : (2 < getClass (sizeAt hp a)) ↔ (255 < b.size) := by
    rw [hsa]
    exact getClass_gt_two_iff b.size
  have hmark := markFreeAt_eq hloc
  have hmarkpos : ∀ x ∈ (markFreeAt hp a).blocks, 0 < x.size := by
    rw [hmark]
    intro x hx
    rcases List.mem_append.mp hx with hx | hx
    · exact hpre x hx
    · rcases List.mem_cons.mp hx with rfl | hx'
      · simpa using hbpos
      · exact hpost x hx'
  have hlocMark : locate (markFreeAt hp a).blocks a =
      some (pre, { b with used := false, fsize := b.size, fused := false }, post) := by
    rw [hmark]
    show locate (pre ++ _ :: post) a = _
    rw [haddr]
    exact locate_append_at pre hpre _ post
  have hmainEq : mm_free hp (some a) =
      (if 255 < b.size then
        put_on_front_of_class_list (coalesce (markFreeAt hp a) a).2
          (getClass (sizeAt (coalesce (markFreeAt hp a) a).2 (coalesce (markFreeAt hp a) a).1))
          (coalesce (markFreeAt hp a) a).1
      else put_on_front_of_class_list (markFreeAt hp a) (getClass b.size) a) := by
    rw [mm_free_some_eq hp a, hsa]
    by_cases hcond : 255 < b.size
    · rw [if_pos ((getClass_gt_two_iff b.size).mpr hcond), if_pos hcond]
    · rw [if_neg (fun h => hcond ((getClass_gt_two_iff b.size).mp h)), if_neg hcond]
  refine ⟨rfl, hmainEq, ?_, ?_⟩
  · -- small blocks: no coalescing, direct push
    intro hsmall
    have hlt : ¬255 < b.size := by omega
    have hfr : mm_free hp (some a) =
        put_on_front_of_class_list (markFreeAt hp a) (getClass b.size) a := by
      rw [hmainEq, if_neg hlt]
    have hcl : getClass b.size < 20 := by
      have : ¬2 < getClass b.size := fun h => hlt ((getClass_gt_two_iff b.size).mp h)
      omega
    have hput := put_getD_eq a hcl
      (show (markFreeAt hp a).table.length = 20 by rw [hmark]; exact hw.tableLen)
    have hba : blockAt (mm_free hp (some a)) a =
        some { b with used := false, fsize := b.size, fused := false } := by
      show blockAtL (mm_free hp (some a)).blocks a = _
      rw [hfr, (put_blocks _ _ _).1]
      simp [blockAtL, hlocMark]
    refine ⟨usedAt_of_blockAt hba, fusedAt_of_blockAt hba, by rw [sizeAt_of_blockAt hba],
      by rw [fsizeAt_of_blockAt hba], ?_⟩
    rw [hfr, hput.1, hmark]
  · -- large blocks: coalesce then push (or no push at class 20)
    intro hbig
    have hfr : mm_free hp (some a) =
        put_on_front_of_class_list (coalesce (markFreeAt hp a) a).2
          (getClass (sizeAt (coalesce (markFreeAt hp a) a).2 (coalesce (markFreeAt hp a) a).1))
          (coalesce (markFreeAt hp a) a).1 := by
      rw [hmainEq, if_pos hbig]
    obtain ⟨hcb, hctab, hclen, hszb⟩ := coalesce_result hmarkpos hlocMark
    have hba : blockAt (mm_free hp (some a)) (coalesce (markFreeAt hp a) a).1 =
        some (mergeBlocks ((walkLeft a pre.reverse).1.reverse.map Prod.snd ++
          { b with used := false, fsize := b.size, fused := false } ::
            (walkRight (markFreeAt hp a).endHeap a
              ({ b with used := false, fsize := b.size, fused := false } : Block).size
              post).1.map Prod.snd) false) := by
      show blockAtL (mm_free hp (some a)).blocks _ = _
      rw [hfr, (put_blocks _ _ _).1]
      exact hcb
    have hused : usedAt (mm_free hp (some a)) (coalesce (markFreeAt hp a) a).1 = false := by
      rw [usedAt_of_blockAt hba]
      rfl
    have hfused : fusedAt (mm_free hp (some a)) (coalesce (markFreeAt hp a) a).1 = false := by
      rw [fusedAt_of_blockAt hba]
      rfl
    have hsize : b.size ≤
        sizeAt (mm_free hp (some a)) (coalesce (markFreeAt hp a) a).1 := by
      have hsamesz : sizeAt (mm_free hp (some a)) (coalesce (markFreeAt hp a) a).1 =
          sizeAt (coalesce (markFreeAt hp a) a).2 (coalesce (markFreeAt hp a) a).1 := by
        rw [sizeAt_of_blockAt hba, sizeAt_of_blockAt hcb]
      rw [hsamesz]
      simpa using hszb
    refine ⟨hused, hfused, hsize, ?_, ?_⟩
    · intro hc20
      have hput := put_getD_eq (coalesce (markFreeAt hp a) a).1 hc20
        (show (coalesce (markFreeAt hp a) a).2.table.length = 20
          by rw [hclen, hmark]; exact hw.tableLen)
      rw [hfr, hput.1]
    · intro hc20
      rw [hfr, put_oob _ (by omega)]

theorem c6_free_amended_witness :
    Wf usedOnlyHeap ∧
    locate usedOnlyHeap.blocks 0 =
      some ([], { size := 32, used := true, fsize := 32, fused := true,
                  data := List.replicate 16 0 }, []) ∧
    usedAt (mm_free usedOnlyHeap (some 0)) 0 = false ∧
    (mm_free usedOnlyHeap (some 0)).table.getD (getClass 32) [] =
      0 :: usedOnlyHeap.table.getD (getClass 32) [] := by
  have happ := c6_free_amended usedOnlyHeap 0 []
    { size := 32, used := true, fsize := 32, fused := true, data := List.replicate 16 0 }
    [] (by decide) (by decide) (by decide)
  have hsm := happ.2.2.1 (by decide)
  exact ⟨by decide, by decide, hsm.1, hsm.2.2.2.2⟩

/-! ## Claim C10 -/

theorem mm_free_big_eq {hp : Heap} {a : Nat} {pre : List Block} {b : Block}
    {post : List Block} (hloc : locate hp.blocks a = some (pre, b, post))
    (hbig : 255 < b.size) :
    mm_free hp (some a) =
      put_on_front_of_class_list (coalesce (markFreeAt hp a) a).2
        (getClass (sizeAt (coalesce (markFreeAt hp a) a).2 (coalesce (markFreeAt hp a) a).1))
        (coalesce (markFreeAt hp a) a).1 := by
  rw [mm_free_some_eq hp a, sizeAt_of_locate hloc,
    if_pos ((getClass_gt_two_iff b.size).mpr hbig)]

theorem markFree_locate {hp : Heap} {a : Nat} {pre : List Block} {b : Block}
    {post : List Block} (hw : Wf hp) (hloc : locate hp.blocks a = some (pre, b, post)) :
    locate (markFreeAt hp a).blocks a =
      some (pre, { b with used := false, fsize := b.size, fused := false }, post) ∧
    (∀ x ∈ (markFreeAt hp a).blocks, 0 < x.size) ∧
    (markFreeAt hp a).table = hp.table := by
  obtain ⟨hpre, hbpos, hpost, haddr, hblocks⟩ := wf_locate_facts hw hloc
  have hmark := markFreeAt_eq hloc
  refine ⟨?_, ?_, by rw [hmark]⟩
  · rw [hmark]
    show locate (pre ++ _ :: post) a = _
    rw [haddr]
    exact locate_append_at pre hpre _ post
  · rw [hmark]
    intro x hx
    rcases List.mem_append.mp hx with hx | hx
    · exact hpre x hx
    · rcases List.mem_cons.mp hx with rfl | hx'
      · simpa using hbpos
      · exact hpost x hx'

/-- C10: `put_on_front_of_class_list` with a class outside `[0, 20)` leaves
the heap unchanged and `search_free_list` returns none; consequently when
`mm_free` computes class 20 for a block of total size at least `64·2^19`
bytes the block is marked free but linked into no class list (its free
lists stay exactly those left by coalescing), and an allocation whose
needed size maps to class 20 skips the free-list search and always calls
the grow primitive. -/
theorem c10_class_twenty_behaviour :
    (∀ (hp : Heap) (c : Int) (a : Nat), c < 0 ∨ 20 ≤ c →
      put_on_front_of_class_list hp c a = hp) ∧
    (∀ (hp : Heap) (c : Int) (need : Nat), c < 0 ∨ 20 ≤ c →
      search_free_list hp c need = none) ∧
    (∀ (hp : Heap) (a : Nat) (pre : List Block) (b : Block) (post : List Block),
      Wf hp → locate hp.blocks a = some (pre, b, post) → b.used = true →
      64 * 2 ^ 19 ≤ b.size →
      usedAt (mm_free hp (some a)) (coalesce (markFreeAt hp a) a).1 = false ∧
      (mm_free hp (some a)).table = (coalesce (markFreeAt hp a) a).2.table ∧
      (∀ c', c' < 20 →
        (coalesce (markFreeAt hp a) a).1 ∉ (mm_free hp (some a)).table.getD c' [])) ∧
    (∀ (hp : Heap) (size : Nat) (ok : Bool), size ≠ 0 →
      getClass (max 32 (align (size + 16))) = 20 →
      mm_malloc hp size ok =
        if ok then (some (heapSize hp), growHeap hp (max 32 (align (size + 16))))
        else (none, hp)) := by
  refine ⟨?_, ?_, ?_, ?_⟩
  · intro hp c a h
    unfold put_on_front_of_class_list
    rw [if_pos h]
  · intro hp c need h
    unfold search_free_list
    rw [if_pos h]
  · intro hp a pre b post hw hloc hbu hgiant
    have hbig : 255 < b.size := by omega
    obtain ⟨hlocM, hMpos, hMtab⟩ := markFree_locate hw hloc
    obtain ⟨hpre, hbpos, hpost, haddr, hblocks⟩ := wf_locate_facts hw hloc
    obtain ⟨hcb, hctab, hclen, hszb⟩ := coalesce_result hMpos hlocM
    have hsz20 : getClass
        (sizeAt (coalesce (markFreeAt hp a) a).2 (coalesce (markFreeAt hp a) a).1) = 20 := by
      refine (getClass_eq_twenty_iff _).mpr ?_
      have : ({ b with used := false, fsize := b.size, fused := false } : Block).size ≤
          sizeAt (coalesce (markFreeAt hp a) a).2 (coalesce (markFreeAt hp a) a).1 := hszb
      simp only at this
      omega
    have hfr2 : mm_free hp (some a) = (coalesce (markFreeAt hp a) a).2 := by
      rw [mm_free_big_eq hloc hbig, hsz20, put_oob _ (le_refl 20)]
    have hfst : (coalesce (markFreeAt hp a) a).1 = (walkLeft a pre.reverse).2.2 := by
      rw [coalesce_eq hlocM]
    refine ⟨?_, by rw [hfr2], ?_⟩
    · have hba : blockAt (mm_free hp (some a)) (coalesce (markFreeAt hp a) a).1 =
          some (mergeBlocks ((walkLeft a pre.reverse).1.reverse.map Prod.snd ++
            { b with used := false, fsize := b.size, fused := false } ::
              (walkRight (markFreeAt hp a).endHeap a
                ({ b with used := false, fsize := b.size, fused := false } : Block).size
                post).1.map Prod.snd) false) := by
        show blockAtL (mm_free hp (some a)).blocks _ = _
        rw [hfr2]
        exact hcb
      rw [usedAt_of_blockAt hba]
      rfl
    · intro c' hc'
      rw [hfr2, hctab, hfst]
      by_cases hwl : (walkLeft a pre.reverse).1 = []
      · have hfin : (walkLeft a pre.reverse).2.2 = a := by
          obtain ⟨_, hfin, _⟩ := walkLeft_decomp pre.reverse a
          rw [hfin, hwl]
          simp
        rw [hfin]
        apply removeAll_notMem
        rw [hMtab]
        intro hmem
        have hus := (hw.listMem c' (List.mem_range.mpr hc') a hmem).2.1
        rw [usedAt_of_locate hloc, hbu] at hus
        exact absurd hus (by simp)
      · obtain ⟨blk, hblkmem⟩ := walkLeft_fin_mem pre.reverse a hwl
        obtain ⟨hdec, hfin, hconsfacts⟩ := walkLeft_decomp pre.reverse a
        have hblkAt : blockAtL (markFreeAt hp a).blocks
            (walkLeft a pre.reverse).2.2 = some blk := by
          have := walkLeft_mem hMpos pre.reverse a
            ({ b with used := false, fsize := b.size, fused := false } :: post)
            (by rw [(markFreeAt_eq hloc)]; simp)
            (by rw [List.reverse_reverse]; exact haddr)
            _ hblkmem
          exact this
        obtain ⟨hblku, hblksz⟩ := hconsfacts _ hblkmem
        have hblksz' : 255 < blk.size := hblksz
        by_cases hcc : c' = getClass blk.size
        · subst hcc
          refine removeAll_kill _ _ ?_ _ blk
            (List.mem_append.mpr (Or.inr hblkmem))
          intro c
          rw [hMtab]
          exact nodup_getD_of_flatten hw.nodup c
        · apply removeAll_notMem
          rw [hMtab]
          intro hmem
          have hfacts := hw.listMem c' (List.mem_range.mpr hc') _ hmem
          -- the final address is strictly left of `a`
          have hconsle : blockSum ((walkLeft a pre.reverse).1.map Prod.snd) ≤
              blockSum pre := by
            have := congrArg blockSum hdec
            simp only [blockSum_append, blockSum_reverse] at this
            omega
          have hconspos : 0 < blockSum ((walkLeft a pre.reverse).1.map Prod.snd) := by
            have hmem2 : blk.size ∈
                (((walkLeft a pre.reverse).1.map Prod.snd).map Block.size) := by
              refine List.mem_map.mpr ⟨blk, List.mem_map.mpr ⟨_, hblkmem, rfl⟩, rfl⟩
            have hsum := List.single_le_sum
              (fun (x : Nat) _ => Nat.zero_le x) _ hmem2
            unfold blockSum
            omega
          have hfa : (walkLeft a pre.reverse).2.2 ≠ a := by
            rw [hfin]
            omega
          have hAtHp : blockAtL hp.blocks (walkLeft a pre.reverse).2.2 = some blk := by
            have hblkAt' : blockAtL
                (pre ++ { b with used := false, fsize := b.size, fused := false } :: post)
                (walkLeft a pre.reverse).2.2 = some blk := by
              have := hblkAt
              simp only [markFreeAt_eq hloc] at this
              exact this
            have hrep := @blockAtL_replace pre
              { b with used := false, fsize := b.size, fused := false } post [b] hpre
              (by intro x hx; simp at hx; subst hx; exact hbpos)
              (by simp)
              (walkLeft a pre.reverse).2.2
              (by rw [← haddr]; exact hfa)
              blk
              hblkAt'
            rw [hblocks]
            simpa using hrep
          have hszfin : sizeAt hp (walkLeft a pre.reverse).2.2 = blk.size := by
            simp [sizeAt, blockAt, hAtHp]
          rw [hszfin] at hfacts
          exact hcc hfacts.2.2.symm
  · intro hp size ok hs hcl
    have hln : mallocLoop hp (max 32 (align (size + 16)))
        (getClass (max 32 (align (size + 16)))) = none := by
      rw [hcl]
      rfl
    simp only [mm_malloc, if_neg hs, hln]

/-- A used block of `64·2^19 = 33554432` bytes (class 20). -/
def wGiantBlock : Block :=
  { size := 33554432, used := true, fsize := 33554432, fused := true,
    data := List.replicate 33554416 0 }

/-- A heap holding only the giant used block. -/
def wGiantHeap : Heap :=
  { blocks := [wGiantBlock], table := List.replicate 20 [], endHeap := 0 }

theorem wGiantHeap_wf : Wf wGiantHeap := by
  have hs : wGiantBlock.size = 33554432 := rfl
  have hd : wGiantBlock.data = List.replicate 33554416 0 := rfl
  refine ⟨by decide, by decide, ?_, by decide, by decide, by decide⟩
  intro b hb
  have hb' : b = wGiantBlock := by
    simpa [wGiantHeap] using hb
  subst hb'
  refine ⟨by rw [hs]; norm_num, by rw [hs], rfl, rfl, ?_⟩
  rw [hd, hs, List.length_replicate]

theorem c10_class_twenty_behaviour_witness :
    ((25 : Int) < 0 ∨ 20 ≤ (25 : Int)) ∧
    put_on_front_of_class_list usedOnlyHeap 25 7 = usedOnlyHeap ∧
    search_free_list usedOnlyHeap (-1) 5 = none ∧
    Wf wGiantHeap ∧
    locate wGiantHeap.blocks 0 = some ([], wGiantBlock, []) ∧
    wGiantBlock.used = true ∧ 64 * 2 ^ 19 ≤ wGiantBlock.size ∧
    usedAt (mm_free wGiantHeap (some 0)) (coalesce (markFreeAt wGiantHeap 0) 0).1 = false ∧
    (mm_free wGiantHeap (some 0)).table = (coalesce (markFreeAt wGiantHeap 0) 0).2.table ∧
    (∀ c', c' < 20 →
      (coalesce (markFreeAt wGiantHeap 0) 0).1 ∉
        (mm_free wGiantHeap (some 0)).table.getD c' []) ∧
    ((33554416 : Nat) ≠ 0 ∧ getClass (max 32 (align (33554416 + 16))) = 20 ∧
      mm_malloc wGiantHeap 33554416 true =
        if true then
          (some (heapSize wGiantHeap), growHeap wGiantHeap (max 32 (align (33554416 + 16))))
        else (none, wGiantHeap)) := by
  have happ := c10_class_twenty_behaviour
  have hfree := happ.2.2.1 wGiantHeap 0 [] wGiantBlock [] wGiantHeap_wf rfl rfl (by decide)
  refine ⟨by decide, happ.1 usedOnlyHeap 25 7 (by decide),
    happ.2.1 usedOnlyHeap (-1) 5 (by decide), wGiantHeap_wf, rfl, rfl, by decide,
    hfree.1, hfree.2.1, hfree.2.2, by decide, by decide,
    happ.2.2.2 wGiantHeap 33554416 true (by decide) (by decide)⟩

/-! ## Claim C5 -/

theorem mergeBlocks_size (l : List Block) (u : Bool) : (mergeBlocks l u).size = blockSum l :=
  rfl

/-- C5: for a used block `p` of size `old` and a request making
`new = max(MIN_BLOCK_SIZE, align8(n + header + footer)) > old`, when the
rightward simulation finds enough contiguous free space, resize returns the
same pointer `p`; the absorption loop consumes at least one right
neighbour, reaching at least `new − old` bytes; each consumed neighbour is
unlinked from its class list; `p`'s header and footer are rewritten to the
summed size with the in-use bit set (any surplus of the final consumed
neighbour is absorbed into the block rather than re-split — the consumed
blocks are replaced by the single merged block); and the last-block pointer
is updated to `p` exactly when the last consumed neighbour was the heap's
last block. -/
theorem c5_resize_grow_in_place (hp : Heap) (p n : Nat) (ok : Bool)
    (pre : List Block) (b : Block) (post : List Block)
    (hw : Wf hp) (hloc : locate hp.blocks p = some (pre, b, post))
    (hbu : b.used = true) (hn : 0 < n)
    (hgrow : b.size < max 32 (align (n + 16)))
    (hsim : simulate_right_coalesce hp p (max 32 (align (n + 16)) - b.size) = true) :
    (mm_realloc hp (some p) n ok).1 = some p ∧
    (absorbWalk hp.endHeap p b.size post (max 32 (align (n + 16)) - b.size) 0).1 ≠ [] ∧
    max 32 (align (n + 16)) - b.size ≤ blockSum
      ((absorbWalk hp.endHeap p b.size post
        (max 32 (align (n + 16)) - b.size) 0).1.map Prod.snd) ∧
    sizeAt (mm_realloc hp (some p) n ok).2 p = b.size + blockSum
      ((absorbWalk hp.endHeap p b.size post
        (max 32 (align (n + 16)) - b.size) 0).1.map Prod.snd) ∧
    usedAt (mm_realloc hp (some p) n ok).2 p = true ∧
    fusedAt (mm_realloc hp (some p) n ok).2 p = true ∧
    fsizeAt (mm_realloc hp (some p) n ok).2 p = b.size + blockSum
      ((absorbWalk hp.endHeap p b.size post
        (max 32 (align (n + 16)) - b.size) 0).1.map Prod.snd) ∧
    (mm_realloc hp (some p) n ok).2.blocks =
      pre ++ mergeBlocks (b :: (absorbWalk hp.endHeap p b.size post
          (max 32 (align (n + 16)) - b.size) 0).1.map Prod.snd) true ::
        (absorbWalk hp.endHeap p b.size post (max 32 (align (n + 16)) - b.size) 0).2.1 ∧
    (∀ x ∈ (absorbWalk hp.endHeap p b.size post
        (max 32 (align (n + 16)) - b.size) 0).1, ∀ c', c' < 20 →
      x.1 ∉ (mm_realloc hp (some p) n ok).2.table.getD c' []) ∧
    ((mm_realloc hp (some p) n ok).2.endHeap = p ↔
      (absorbWalk hp.endHeap p b.size post
        (max 32 (align (n + 16)) - b.size) 0).2.2 = hp.endHeap) := by
  obtain ⟨hpre, hbpos, hpost, haddr, hblocks⟩ := wf_locate_facts hw hloc
  have hsz : sizeAt hp p = b.size := sizeAt_of_locate hloc
  have hsimw : simWalk hp.endHeap p b.size post (max 32 (align (n + 16)) - b.size) 0 =
      true := by
    unfold simulate_right_coalesce at hsim
    rw [hloc] at hsim
    exact hsim
  have hpne : p ≠ hp.endHeap := simWalk_ne hp.endHeap hsimw
  obtain ⟨hcons, hreach⟩ := simWalk_absorb hp.endHeap post p b.size
    (max 32 (align (n + 16)) - b.size) 0 hsimw
  have hred : mm_realloc hp (some p) n ok =
      absorbRight hp p (max 32 (align (n + 16)) - b.size) := by
    simp only [mm_realloc]
    rw [if_neg (by omega : ¬n = 0)]
    simp only [hsz, if_neg (by omega : ¬max 32 (align (n + 16)) = b.size),
      if_pos hgrow]
    rw [if_pos hsim]
  have habs : absorbRight hp p (max 32 (align (n + 16)) - b.size) =
      (some p,
       { removeAll hp (absorbWalk hp.endHeap p b.size post
           (max 32 (align (n + 16)) - b.size) 0).1 with
         blocks := pre ++ mergeBlocks (b :: (absorbWalk hp.endHeap p b.size post
             (max 32 (align (n + 16)) - b.size) 0).1.map Prod.snd) true ::
           (absorbWalk hp.endHeap p b.size post
             (max 32 (align (n + 16)) - b.size) 0).2.1,
         endHeap := if (absorbWalk hp.endHeap p b.size post
             (max 32 (align (n + 16)) - b.size) 0).2.2 = hp.endHeap then p
           else hp.endHeap }) := by
    simp only [absorbRight, hloc]
  have hblocksr : (mm_realloc hp (some p) n ok).2.blocks =
      pre ++ mergeBlocks (b :: (absorbWalk hp.endHeap p b.size post
          (max 32 (align (n + 16)) - b.size) 0).1.map Prod.snd) true ::
        (absorbWalk hp.endHeap p b.size post
          (max 32 (align (n + 16)) - b.size) 0).2.1 := by
    rw [hred, habs]
  have hba : blockAt (mm_realloc hp (some p) n ok).2 p =
      some (mergeBlocks (b :: (absorbWalk hp.endHeap p b.size post
        (max 32 (align (n + 16)) - b.size) 0).1.map Prod.snd) true) := by
    show blockAtL (mm_realloc hp (some p) n ok).2.blocks p = _
    rw [hblocksr, haddr]
    exact blockAtL_append_at pre hpre _ _
  have htabr : (mm_realloc hp (some p) n ok).2.table =
      (removeAll hp (absorbWalk hp.endHeap p b.size post
        (max 32 (align (n + 16)) - b.size) 0).1).table := by
    rw [hred, habs]
  refine ⟨by rw [hred, habs], hcons, by simpa using hreach, ?_, ?_, ?_, ?_, hblocksr,
    ?_, ?_⟩
  · rw [sizeAt_of_blockAt hba, mergeBlocks_size]
    simp
  · rw [usedAt_of_blockAt hba]
    rfl
  · rw [fusedAt_of_blockAt hba]
    rfl
  · rw [fsizeAt_of_blockAt hba]
    show blockSum _ = _
    simp
  · -- every consumed neighbour is unlinked from every class list
    intro x hx c' hc'
    rw [htabr]
    have hxat : blockAtL hp.blocks x.1 = some x.2 :=
      absorbWalk_mem hw.posSizes hp.endHeap post p b.size
        (max 32 (align (n + 16)) - b.size) 0 pre b hblocks haddr rfl x hx
    by_cases hcc : c' = getClass x.2.size
    · subst hcc
      have := removeAll_kill _ hp (fun c => nodup_getD_of_flatten hw.nodup c) x.1 x.2
        (by rcases x with ⟨x1, x2⟩; exact hx)
      exact this
    · apply removeAll_notMem
      intro hmem
      have hfacts := hw.listMem c' (List.mem_range.mpr hc') _ hmem
      have hszx : sizeAt hp x.1 = x.2.size := by
        simp [sizeAt, blockAt, hxat]
      rw [hszx] at hfacts
      exact hcc hfacts.2.2.symm
  · have hend : (mm_realloc hp (some p) n ok).2.endHeap =
        if (absorbWalk hp.endHeap p b.size post
            (max 32 (align (n + 16)) - b.size) 0).2.2 = hp.endHeap then p
          else hp.endHeap := by
      rw [hred, habs]
    rw [hend]
    constructor
    · intro h
      by_contra hc
      rw [if_neg hc] at h
      exact hpne h.symm
    · intro h
      rw [if_pos h]

/-- A used 32-byte block. -/
def uBlock32 : Block :=
  { size := 32, used := true, fsize := 32, fused := true, data := List.replicate 16 0 }

/-- A free 48-byte block. -/
def fBlock48 : Block :=
  { size := 48, used := false, fsize := 48, fused := false, data := List.replicate 32 0 }

/-- A heap with a used 32-byte block followed by a free 48-byte block on
class list 0. -/
def absorbHeap : Heap :=
  { blocks := [uBlock32, fBlock48],
    table := [32] :: List.replicate 19 [],
    endHeap := 32 }

theorem c5_resize_grow_in_place_witness :
    Wf absorbHeap ∧
    locate absorbHeap.blocks 0 = some ([], uBlock32, [fBlock48]) ∧
    uBlock32.used = true ∧ (0 : Nat) < 24 ∧
    uBlock32.size < max 32 (align (24 + 16)) ∧
    simulate_right_coalesce absorbHeap 0 (max 32 (align (24 + 16)) - uBlock32.size) =
      true ∧
    (mm_realloc absorbHeap (some 0) 24 true).1 = some 0 ∧
    sizeAt (mm_realloc absorbHeap (some 0) 24 true).2 0 = 80 ∧
    usedAt (mm_realloc absorbHeap (some 0) 24 true).2 0 = true ∧
    (mm_realloc absorbHeap (some 0) 24 true).2.endHeap = 0 := by
  have happ := c5_resize_grow_in_place absorbHeap 0 24 true [] uBlock32 [fBlock48]
    (by decide) (by decide) (by decide) (by decide) (by decide) (by decide)
  refine ⟨by decide, by decide, by decide, by decide, by decide, by decide, happ.1,
    ?_, happ.2.2.2.2.1, ?_⟩
  · exact happ.2.2.2.1.trans (by decide)
  · exact (happ.2.2.2.2.2.2.2.2.2).mpr (by decide)

/-! ## Preservation lemmas for the reallocation fallback path -/

theorem blockAtL_of_some {l : List Block} {p : Nat} {bp : Block}
    (h : blockAtL l p = some bp) :
    ∃ pre post, locate l p = some (pre, bp, post) := by
  rcases hl : locate l p with _ | ⟨⟨pre, c, post⟩⟩
  · rw [blockAtL, hl] at h
    exact absurd h (by simp)
  · rw [blockAtL, hl] at h
    simp only [Option.map_some', Option.some.injEq] at h
    subst h
    exact ⟨pre, post, rfl⟩

theorem mm_malloc_preserves {hp : Heap} {s : Nat} {ok : Bool} {q : Nat}
    (hw : Wf hp) {p : Nat} {b : Block} (hbp : blockAtL hp.blocks p = some b)
    (hbu : b.used = true) (hq : (mm_malloc hp s ok).1 = some q) :
    blockAtL (mm_malloc hp s ok).2.blocks p = some b ∧
    (∃ bq, blockAtL (mm_malloc hp s ok).2.blocks q = some bq ∧ bq.used = true) ∧
    q ≠ p ∧ (∀ x ∈ (mm_malloc hp s ok).2.blocks, 0 < x.size) := by
  by_cases hs : s = 0
  · rw [hs] at hq
    simp [mm_malloc] at hq
  rcases hm : mallocLoop hp (max 32 (align (s + 16))) (getClass (max 32 (align (s + 16))))
    with _ | ⟨c, a⟩
  · -- no candidate: grow branch
    cases ok with
    | false =>
      have hnone : (mm_malloc hp s false).1 = none := by
        simp [mm_malloc, if_neg hs, hm]
      rw [hnone] at hq
      exact absurd hq (by simp)
    | true =>
      have hred : mm_malloc hp s true =
          (some (heapSize hp), growHeap hp (max 32 (align (s + 16)))) := by
        simp [mm_malloc, if_neg hs, hm]
      have hqa : q = heapSize hp := by
        rw [hred] at hq
        injection hq with hq
        exact hq.symm
      subst hqa
      obtain ⟨prep, postp, hlp⟩ := blockAtL_of_some hbp
      rw [hred]
      refine ⟨?_, ?_, ?_, ?_⟩
      · show blockAtL (hp.blocks ++ [_]) p = some b
        rw [blockAtL, locate_append_left _ hlp]
        rfl
      · refine ⟨Block.mk (max 32 (align (s + 16))) true (max 32 (align (s + 16))) true
          (List.replicate (max 32 (align (s + 16)) - 16) 0), ?_, rfl⟩
        show blockAtL (hp.blocks ++ _ :: []) (heapSize hp) = _
        exact blockAtL_append_at hp.blocks hw.posSizes _ []
      · intro hqp
        have hlt := locate_lt_blockSum hlp hw.posSizes
        rw [← hqp] at hlt
        exact absurd hlt (by simp [heapSize])
      · intro x hx
        show 0 < x.size
        rcases List.mem_append.mp hx with hx | hx
        · exact hw.posSizes x hx
        · simp only [List.mem_singleton] at hx
          subst hx
          show 0 < max 32 (align (s + 16))
          omega
  · -- candidate found
    obtain ⟨hc20, _, hsearch⟩ := mallocLoop_some hm
    obtain ⟨hmem, hneed⟩ := search_mem hc20 hsearch
    obtain ⟨hfreeAt, _, hexAt⟩ := hw.free_of_mem hc20 hmem
    rcases hla : locate hp.blocks a with _ | ⟨⟨pre1, b1, post1⟩⟩
    · rw [existsAt, blockAt, blockAtL, hla] at hexAt
      exact absurd hexAt (by simp)
    obtain ⟨hpre1, hb1pos, hpost1, haddr1, hblocks1⟩ := wf_locate_facts hw hla
    have hb1u : b1.used = false := by
      rw [usedAt_of_locate hla] at hfreeAt
      exact hfreeAt
    have hqa : q = a := by
      have hsome : (mm_malloc hp s ok).1 = some a := by
        simp only [mm_malloc, if_neg hs, hm, hla]
        by_cases hrem : b1.size - max 32 (align (s + 16)) ≤ 32 <;> simp [hrem]
      rw [hsome] at hq
      injection hq with hq
      exact hq.symm
    subst hqa
    have hpa : p ≠ q := by
      intro hpa
      rw [hpa, blockAtL, hla] at hbp
      simp only [Option.map_some', Option.some.injEq] at hbp
      rw [← hbp] at hbu
      rw [hbu] at hb1u
      exact absurd hb1u (by simp)
    have hneed1 : max 32 (align (s + 16)) ≤ b1.size := by
      rw [sizeAt_of_locate hla] at hneed
      exact hneed
    by_cases hrem : b1.size - max 32 (align (s + 16)) ≤ 32
    · have hred : mm_malloc hp s ok =
          (some q, remove_from_free_list
            { hp with blocks :=
                pre1 ++ { b1 with used := true, fsize := b1.size, fused := true } :: post1 }
            c q) := by
        simp only [mm_malloc, if_neg hs, hm, hla]
        simp [hrem]
      rw [hred]
      refine ⟨?_, ?_, hpa.symm, ?_⟩
      · show blockAtL (pre1 ++ _ :: post1) p = some b
        have hrep := @blockAtL_replace pre1 b1 post1
          [{ b1 with used := true, fsize := b1.size, fused := true }]
          hpre1
          (by intro x hx; simp only [List.mem_singleton] at hx; subst hx; simpa using hb1pos)
          (by simp)
          p
          (by rw [← haddr1]; exact hpa)
          b
          (by rw [← hblocks1]; exact hbp)
        simpa using hrep
      · refine ⟨Block.mk b1.size true b1.size true b1.data, ?_, rfl⟩
        show blockAtL (pre1 ++ _ :: post1) q = _
        rw [haddr1]
        exact blockAtL_append_at pre1 hpre1 _ post1
      · intro x hx
        show 0 < x.size
        rcases List.mem_append.mp hx with hx | hx
        · exact hw.posSizes x (by rw [hblocks1]; exact List.mem_append.mpr (Or.inl hx))
        · rcases List.mem_cons.mp hx with rfl | hx'
          · simpa using hb1pos
          · exact hw.posSizes x
              (by rw [hblocks1]
                  exact List.mem_append.mpr (Or.inr (List.mem_cons_of_mem _ hx')))
    · have hred : mm_malloc hp s ok = (some q, split hp q (max 32 (align (s + 16)))) := by
        simp only [mm_malloc, if_neg hs, hm, hla]
        simp [hrem]
      have hsplit : split hp q (max 32 (align (s + 16))) =
          put_on_front_of_class_list
            { hp with
              table := tableModify hp.table (getClass b1.size) (fun l => l.erase q),
              blocks := pre1 ++
                { size := max 32 (align (s + 16)), used := true,
                  fsize := max 32 (align (s + 16)), fused := true,
                  data := b1.data.take (max 32 (align (s + 16)) - 16) } ::
                { size := b1.size - max 32 (align (s + 16)), used := false,
                  fsize := b1.size - max 32 (align (s + 16)), fused := false,
                  data := b1.data.drop (max 32 (align (s + 16))) } :: post1,
              endHeap := if hp.endHeap = q then q + max 32 (align (s + 16))
                else hp.endHeap }
            (getClass (b1.size - max 32 (align (s + 16)))) (q + max 32 (align (s + 16))) := by
        simp only [split, hla, hb1u, Bool.false_eq_true, if_neg (by simp : ¬False)]
        rfl
      rw [hred, hsplit]
      have hblocks2 : (put_on_front_of_class_list
          { hp with
            table := tableModify hp.table (getClass b1.size) (fun l => l.erase q),
            blocks := pre1 ++
              { size := max 32 (align (s + 16)), used := true,
                fsize := max 32 (align (s + 16)), fused := true,
                data := b1.data.take (max 32 (align (s + 16)) - 16) } ::
              { size := b1.size - max 32 (align (s + 16)), used := false,
                fsize := b1.size - max 32 (align (s + 16)), fused := false,
                data := b1.data.drop (max 32 (align (s + 16))) } :: post1,
            endHeap := if hp.endHeap = q then q + max 32 (align (s + 16))
              else hp.endHeap }
          (getClass (b1.size - max 32 (align (s + 16))))
          (q + max 32 (align (s + 16)))).blocks =
          pre1 ++
            { size := max 32 (align (s + 16)), used := true,
              fsize := max 32 (align (s + 16)), fused := true,
              data := b1.data.take (max 32 (align (s + 16)) - 16) } ::
            { size := b1.size - max 32 (align (s + 16)), used := false,
              fsize := b1.size - max 32 (align (s + 16)), fused := false,
              data := b1.data.drop (max 32 (align (s + 16))) } :: post1 :=
        (put_blocks _ _ _).1
      rw [hblocks2]
      refine ⟨?_, ?_, hpa.symm, ?_⟩
      · have hrep := @blockAtL_replace pre1 b1 post1
          [{ size := max 32 (align (s + 16)), used := true,
             fsize := max 32 (align (s + 16)), fused := true,
             data := b1.data.take (max 32 (align (s + 16)) - 16) },
           { size := b1.size - max 32 (align (s + 16)), used := false,
             fsize := b1.size - max 32 (align (s + 16)), fused := false,
             data := b1.data.drop (max 32 (align (s + 16))) }]
          hpre1
          (by intro x hx
              rcases List.mem_cons.mp hx with rfl | hx'
              · show 0 < max 32 (align (s + 16))
                omega
              · simp only [List.mem_singleton] at hx'
                subst hx'
                show 0 < b1.size - max 32 (align (s + 16))
                omega)
          (by show max 32 (align (s + 16)) + (b1.size - max 32 (align (s + 16)) + 0) = b1.size
              omega)
          p
          (by rw [← haddr1]; exact hpa)
          b
          (by rw [← hblocks1]; exact hbp)
        simpa using hrep
      · refine ⟨Block.mk (max 32 (align (s + 16))) true (max 32 (align (s + 16))) true
          (b1.data.take (max 32 (align (s + 16)) - 16)), ?_, rfl⟩
        rw [haddr1]
        exact blockAtL_append_at pre1 hpre1 _ _
      · intro x hx
        rcases List.mem_append.mp hx with hx | hx
        · exact hw.posSizes x (by rw [hblocks1]; exact List.mem_append.mpr (Or.inl hx))
        · rcases List.mem_cons.mp hx with rfl | hx'
          · show 0 < max 32 (align (s + 16))
            omega
          · rcases List.mem_cons.mp hx' with rfl | hx''
            · show 0 < b1.size - max 32 (align (s + 16))
              omega
            · exact hw.posSizes x
                (by rw [hblocks1]
                    exact List.mem_append.mpr (Or.inr (List.mem_cons_of_mem _ hx'')))

theorem packWord_length (s : Nat) (u : Bool) : (packWord s u).length = 8 := by
  simp [packWord, leBytes]

/-- Writing a merged header over a run that starts with block `b` keeps
`b`'s payload as the first `b.size - 16` bytes of the merged payload. -/
theorem mergeBlocks_data_prefix (b : Block) (bs : List Block) (u : Bool)
    (hlen : b.data.length = b.size - 16) :
    ((mergeBlocks (b :: bs) u).data).take (b.size - 16) = b.data := by
  show ((((b :: bs).map rawBytes).flatten.drop 8).take (blockSum (b :: bs) - 16)).take
      (b.size - 16) = b.data
  rw [List.take_take]
  have hmin : min (b.size - 16) (blockSum (b :: bs) - 16) = b.size - 16 := by
    simp only [blockSum_cons]
    omega
  rw [hmin]
  simp only [List.map_cons, List.flatten_cons, rawBytes, List.append_assoc]
  rw [List.drop_left' (packWord_length b.size b.used)]
  exact List.take_left' hlen

/-- Coalescing at a free block's address leaves the block found at the
address of any used block unchanged: the walks consume only free
neighbours, so a used block lies outside the replaced run. -/
theorem coalesce_preserves {hp : Heap} {a q : Nat} {pre : List Block} {b : Block}
    {post : List Block} {bq : Block}
    (hps : ∀ x ∈ hp.blocks, 0 < x.size)
    (hloc : locate hp.blocks a = some (pre, b, post))
    (hbfree : b.used = false)
    (hq : blockAtL hp.blocks q = some bq) (hqu : bq.used = true) :
    blockAtL (coalesce hp a).2.blocks q = some bq := by
  obtain ⟨hblocks, haddr⟩ := locate_decomp hloc
  have hpre : ∀ x ∈ pre, 0 < x.size := fun x hx =>
    hps x (by rw [hblocks]; exact List.mem_append.mpr (Or.inl hx))
  have hbpos : 0 < b.size := hps b (by rw [hblocks]; simp)
  rw [coalesce_eq hloc]
  show blockAtL ((walkLeft a pre.reverse).2.1.reverse ++
      mergeBlocks ((walkLeft a pre.reverse).1.reverse.map Prod.snd ++
        b :: (walkRight hp.endHeap a b.size post).1.map Prod.snd) false ::
      (walkRight hp.endHeap a b.size post).2.1) q = some bq
  obtain ⟨hLdec, hLfin, hLfree⟩ := walkLeft_decomp pre.reverse a
  obtain ⟨hRdec, hRfree⟩ := walkRight_decomp hp.endHeap post a b.size
  have hpreEq : pre = (walkLeft a pre.reverse).2.1.reverse ++
      (walkLeft a pre.reverse).1.reverse.map Prod.snd := by
    have h := congrArg List.reverse hLdec
    simp only [List.reverse_append, List.reverse_reverse] at h
    rw [List.map_reverse]
    exact h.symm
  have hfull : pre ++ b :: post =
      (walkLeft a pre.reverse).2.1.reverse ++
        ((walkLeft a pre.reverse).1.reverse.map Prod.snd ++
          b :: (walkRight hp.endHeap a b.size post).1.map Prod.snd) ++
        (walkRight hp.endHeap a b.size post).2.1 := by
    conv_lhs => rw [hpreEq, ← hRdec]
    simp [List.append_assoc]
  have hv : blockAtL ((walkLeft a pre.reverse).2.1.reverse ++
      ((walkLeft a pre.reverse).1.reverse.map Prod.snd ++
        b :: (walkRight hp.endHeap a b.size post).1.map Prod.snd) ++
      (walkRight hp.endHeap a b.size post).2.1) q = some bq := by
    rw [← hfull, ← hblocks]
    exact hq
  have hLPREpos : ∀ x ∈ (walkLeft a pre.reverse).2.1.reverse, 0 < x.size := by
    intro x hx
    exact hpre x (by rw [hpreEq]; exact List.mem_append.mpr (Or.inl hx))
  have hsegfree : ∀ x ∈ (walkLeft a pre.reverse).1.reverse.map Prod.snd ++
      b :: (walkRight hp.endHeap a b.size post).1.map Prod.snd, x.used = false := by
    intro x hx
    rcases List.mem_append.mp hx with hx | hx
    · obtain ⟨y, hy, rfl⟩ := List.mem_map.mp hx
      exact (hLfree y (List.mem_reverse.mp hy)).1
    · rcases List.mem_cons.mp hx with rfl | hx'
      · exact hbfree
      · obtain ⟨y, hy, rfl⟩ := List.mem_map.mp hx'
        exact (hRfree y hy).1
  have hsegpos : ∀ x ∈ (walkLeft a pre.reverse).1.reverse.map Prod.snd ++
      b :: (walkRight hp.endHeap a b.size post).1.map Prod.snd, 0 < x.size := by
    intro x hx
    rcases List.mem_append.mp hx with hx | hx
    · obtain ⟨y, hy, rfl⟩ := List.mem_map.mp hx
      have := (hLfree y (List.mem_reverse.mp hy)).2
      omega
    · rcases List.mem_cons.mp hx with rfl | hx'
      · exact hbpos
      · obtain ⟨y, hy, rfl⟩ := List.mem_map.mp hx'
        have := (hRfree y hy).2
        omega
  have hrange : (∃ t₁, locate (walkLeft a pre.reverse).2.1.reverse q = some t₁) ∨
      blockSum (walkLeft a pre.reverse).2.1.reverse +
        blockSum ((walkLeft a pre.reverse).1.reverse.map Prod.snd ++
          b :: (walkRight hp.endHeap a b.size post).1.map Prod.snd) ≤ q := by
    have hv' : blockAtL ((walkLeft a pre.reverse).2.1.reverse ++
        (((walkLeft a pre.reverse).1.reverse.map Prod.snd ++
          b :: (walkRight hp.endHeap a b.size post).1.map Prod.snd) ++
        (walkRight hp.endHeap a b.size post).2.1)) q = some bq := by
      rw [← List.append_assoc]
      exact hv
    rcases hlq : locate ((walkLeft a pre.reverse).2.1.reverse ++
        (((walkLeft a pre.reverse).1.reverse.map Prod.snd ++
          b :: (walkRight hp.endHeap a b.size post).1.map Prod.snd) ++
        (walkRight hp.endHeap a b.size post).2.1)) q with _ | t
    · rw [blockAtL, hlq] at hv'
      exact absurd hv' (by simp)
    · rcases locate_cases hlq with ⟨t₁, ht₁⟩ | ⟨hle, t₂, ht₂⟩
      · exact Or.inl ⟨t₁, ht₁⟩
      · rcases locate_cases ht₂ with ⟨⟨p₂, b₂, q₂⟩, htS⟩ | ⟨hle2, t₃, ht₃⟩
        · exfalso
          have hqd : q = blockSum (walkLeft a pre.reverse).2.1.reverse +
              (q - blockSum (walkLeft a pre.reverse).2.1.reverse) := by omega
          have hSfull : locate (((walkLeft a pre.reverse).1.reverse.map Prod.snd ++
              b :: (walkRight hp.endHeap a b.size post).1.map Prod.snd) ++
              (walkRight hp.endHeap a b.size post).2.1)
              (q - blockSum (walkLeft a pre.reverse).2.1.reverse) =
              some (p₂, b₂, q₂ ++ (walkRight hp.endHeap a b.size post).2.1) :=
            locate_append_left _ htS
          have hshift := locate_shift (walkLeft a pre.reverse).2.1.reverse hLPREpos
            (((walkLeft a pre.reverse).1.reverse.map Prod.snd ++
              b :: (walkRight hp.endHeap a b.size post).1.map Prod.snd) ++
              (walkRight hp.endHeap a b.size post).2.1)
            (q - blockSum (walkLeft a pre.reverse).2.1.reverse)
          rw [← hqd, hSfull] at hshift
          rw [blockAtL, hshift] at hv'
          simp only [Option.map_some'] at hv'
          have hb2 : b₂ = bq := by simpa using hv'
          have hmem : b₂ ∈ (walkLeft a pre.reverse).1.reverse.map Prod.snd ++
              b :: (walkRight hp.endHeap a b.size post).1.map Prod.snd := by
            obtain ⟨hS, _⟩ := locate_decomp htS
            rw [hS]
            simp
          have hfree2 : b₂.used = false := hsegfree b₂ hmem
          rw [hb2, hqu] at hfree2
          exact absurd hfree2 (by simp)
        · refine Or.inr ?_
          omega
  exact blockAtL_merge hLPREpos hsegpos (mergeBlocks_size _ _).symm
    (by rw [mergeBlocks_size]; simp only [blockSum_append, blockSum_cons]; omega)
    hrange hv

/-- `mm_free p` leaves the block found at the address of any other used
block unchanged. -/
theorem mm_free_preserves {hp : Heap} {p q : Nat} {bq : Block}
    (hps : ∀ x ∈ hp.blocks, 0 < x.size)
    (hq : blockAtL hp.blocks q = some bq) (hqu : bq.used = true) (hne : q ≠ p) :
    blockAtL (mm_free hp (some p)).blocks q = some bq := by
  rw [mm_free_some_eq]
  rcases hloc : locate hp.blocks p with _ | ⟨⟨pre, b, post⟩⟩
  · -- `p` addresses no block: the block run is untouched
    have hmf : markFreeAt hp p = hp := by simp [markFreeAt, hloc]
    by_cases hcl : 2 < getClass (sizeAt hp p)
    · rw [if_pos hcl]
      have hpb := (put_blocks (coalesce (markFreeAt hp p) p).2
        (getClass (sizeAt (coalesce (markFreeAt hp p) p).2 (coalesce (markFreeAt hp p) p).1))
        (coalesce (markFreeAt hp p) p).1).1
      rw [hpb, hmf]
      have hco : coalesce hp p = (p, hp) := by simp [coalesce, hloc]
      rw [hco]
      exact hq
    · rw [if_neg hcl]
      have hpb := (put_blocks (markFreeAt hp p) (getClass (sizeAt hp p)) p).1
      rw [hpb, hmf]
      exact hq
  · obtain ⟨hblocks, haddr⟩ := locate_decomp hloc
    have hpre : ∀ x ∈ pre, 0 < x.size := fun x hx =>
      hps x (by rw [hblocks]; exact List.mem_append.mpr (Or.inl hx))
    have hpost : ∀ x ∈ post, 0 < x.size := fun x hx =>
      hps x (by rw [hblocks]; exact List.mem_append.mpr (Or.inr (List.mem_cons_of_mem _ hx)))
    have hbpos : 0 < b.size := hps b (by rw [hblocks]; simp)
    have h1 := markFreeAt_eq hloc
    have hq1 : blockAtL (markFreeAt hp p).blocks q = some bq := by
      rw [h1]
      have hrep := @blockAtL_replace pre b post
        [{ b with used := false, fsize := b.size, fused := false }] hpre
        (by intro x hx; simp only [List.mem_singleton] at hx; subst hx; simpa using hbpos)
        (by simp)
        q
        (by rw [← haddr]; exact hne)
        bq
        (by rw [← hblocks]; exact hq)
      simpa using hrep
    by_cases hcl : 2 < getClass (sizeAt hp p)
    · rw [if_pos hcl]
      have hpb := (put_blocks (coalesce (markFreeAt hp p) p).2
        (getClass (sizeAt (coalesce (markFreeAt hp p) p).2 (coalesce (markFreeAt hp p) p).1))
        (coalesce (markFreeAt hp p) p).1).1
      rw [hpb]
      have hps1 : ∀ x ∈ (markFreeAt hp p).blocks, 0 < x.size := by
        rw [h1]
        intro x hx
        rcases List.mem_append.mp hx with hx | hx
        · exact hpre x hx
        · rcases List.mem_cons.mp hx with rfl | hx'
          · simpa using hbpos
          · exact hpost x hx'
      have hloc1 : locate (markFreeAt hp p).blocks p =
          some (pre, { b with used := false, fsize := b.size, fused := false }, post) := by
        rw [h1]
        show locate (pre ++ _ :: post) p = _
        rw [haddr]
        exact locate_append_at pre hpre _ post
      exact coalesce_preserves hps1 hloc1 rfl hq1 hqu
    · rw [if_neg hcl]
      have hpb := (put_blocks (markFreeAt hp p) (getClass (sizeAt hp p)) p).1
      rw [hpb]
      exact hq1

/-- C3: for every used block `p` with payload length `size(p) − 16` and
every requested size `n` at least that long, a successful `resize(p, n)`
preserves the first `size(p) − 16` payload bytes at the returned address:
the equal-size path leaves the heap unchanged, the in-place absorption
path keeps the old payload as a prefix of the merged block's payload, and
the allocate–copy–free path copies exactly `size(p) − 16` bytes into the
new block before freeing `p`. -/
theorem c3_payload_preserved (hp : Heap) (p n : Nat) (ok : Bool) (b : Block)
    (hw : Wf hp) (hbp : blockAt hp p = some b) (hbu : b.used = true)
    (hn : b.size - 16 ≤ n) {p' : Nat} {h' : Heap}
    (hres : mm_realloc hp (some p) n ok = (some p', h')) :
    (dataAt h' p').take (b.size - 16) = b.data := by
  obtain ⟨pre, post, hloc⟩ := blockAtL_of_some hbp
  obtain ⟨hpre, hbpos, hpost, haddr, hblocks⟩ := wf_locate_facts hw hloc
  have hwfb : wfBlock b := hw.blocksWf b (by rw [hblocks]; simp)
  have hlen : b.data.length = b.size - 16 := hwfb.2.2.2.2
  have hb32 : 32 ≤ b.size := hwfb.1
  have hn0 : ¬n = 0 := by omega
  have hsz : sizeAt hp p = b.size := sizeAt_of_locate hloc
  have halign := le_align (n + 16)
  have hge : b.size ≤ max 32 (align (n + 16)) := by omega
  have htake : b.data.take (b.size - 16) = b.data := by
    rw [← hlen]
    simp
  by_cases heq : max 32 (align (n + 16)) = b.size
  · -- the request rounds to the current block size: the heap is unchanged
    have hred : mm_realloc hp (some p) n ok = (some p, hp) := by
      simp only [mm_realloc]
      rw [if_neg hn0]
      simp only [hsz, if_pos heq]
    rw [hred] at hres
    injection hres with h1 h2
    injection h1 with h1
    subst h1
    rw [← h2, dataAt_of_blockAt hbp]
    exact htake
  · have hlt : b.size < max 32 (align (n + 16)) := by omega
    by_cases hsim : simulate_right_coalesce hp p (max 32 (align (n + 16)) - b.size) = true
    · -- in-place absorption path
      have hred : mm_realloc hp (some p) n ok =
          absorbRight hp p (max 32 (align (n + 16)) - b.size) := by
        simp only [mm_realloc]
        rw [if_neg hn0]
        simp only [hsz, if_neg heq, if_pos hlt]
        rw [if_pos hsim]
      have habs : absorbRight hp p (max 32 (align (n + 16)) - b.size) =
          (some p,
           { removeAll hp (absorbWalk hp.endHeap p b.size post
               (max 32 (align (n + 16)) - b.size) 0).1 with
             blocks := pre ++ mergeBlocks (b :: (absorbWalk hp.endHeap p b.size post
                 (max 32 (align (n + 16)) - b.size) 0).1.map Prod.snd) true ::
               (absorbWalk hp.endHeap p b.size post
                 (max 32 (align (n + 16)) - b.size) 0).2.1,
             endHeap := if (absorbWalk hp.endHeap p b.size post
                 (max 32 (align (n + 16)) - b.size) 0).2.2 = hp.endHeap then p
               else hp.endHeap }) := by
        simp only [absorbRight, hloc]
      have hba : blockAtL (pre ++ mergeBlocks (b :: (absorbWalk hp.endHeap p b.size post
          (max 32 (align (n + 16)) - b.size) 0).1.map Prod.snd) true ::
          (absorbWalk hp.endHeap p b.size post (max 32 (align (n + 16)) - b.size) 0).2.1) p =
          some (mergeBlocks (b :: (absorbWalk hp.endHeap p b.size post
            (max 32 (align (n + 16)) - b.size) 0).1.map Prod.snd) true) := by
        rw [haddr]
        exact blockAtL_append_at pre hpre _ _
      rw [hred, habs] at hres
      injection hres with h1 h2
      injection h1 with h1
      subst h1
      have hda : dataAt h' p = (mergeBlocks (b :: (absorbWalk hp.endHeap p b.size post
          (max 32 (align (n + 16)) - b.size) 0).1.map Prod.snd) true).data := by
        rw [← h2]
        show ((blockAtL (pre ++ _ :: _) p).map Block.data).getD [] = _
        rw [hba]
        rfl
      rw [hda]
      exact mergeBlocks_data_prefix b _ true hlen
    · -- allocate–copy–free fallback
      rcases hm1 : (mm_malloc hp (max 32 (align (n + 16))) ok).1 with _ | q
      · have hred : mm_realloc hp (some p) n ok =
            (none, (mm_malloc hp (max 32 (align (n + 16))) ok).2) := by
          simp only [mm_realloc]
          rw [if_neg hn0]
          simp only [hsz, if_neg heq, if_pos hlt]
          rw [if_neg hsim, hm1]
        rw [hred] at hres
        injection hres with h1 h2
        exact absurd h1 (by simp)
      · have hred : mm_realloc hp (some p) n ok =
            (some q, mm_free (memcpyPayload (mm_malloc hp (max 32 (align (n + 16))) ok).2
              q p (b.size - 16)) (some p)) := by
          simp only [mm_realloc]
          rw [if_neg hn0]
          simp only [hsz, if_neg heq, if_pos hlt]
          rw [if_neg hsim, hm1]
        rw [hred] at hres
        injection hres with h1 h2
        injection h1 with h1
        subst h1
        obtain ⟨hpP, ⟨bq0, hbq0, hbq0u⟩, hqp, hposR⟩ := mm_malloc_preserves hw hbp hbu hm1
        obtain ⟨preq, postq, hlocq⟩ := blockAtL_of_some hbq0
        obtain ⟨hblocksq, haddrq⟩ := locate_decomp hlocq
        have hpreq : ∀ x ∈ preq, 0 < x.size := fun x hx =>
          hposR x (by rw [hblocksq]; exact List.mem_append.mpr (Or.inl hx))
        have hpostq : ∀ x ∈ postq, 0 < x.size := fun x hx =>
          hposR x
            (by rw [hblocksq]; exact List.mem_append.mpr (Or.inr (List.mem_cons_of_mem _ hx)))
        have hdataP : dataAt (mm_malloc hp (max 32 (align (n + 16))) ok).2 p = b.data := by
          show ((blockAtL (mm_malloc hp (max 32 (align (n + 16))) ok).2.blocks p).map
            Block.data).getD [] = _
          rw [hpP]
          rfl
        have hcpy : memcpyPayload (mm_malloc hp (max 32 (align (n + 16))) ok).2 q p
            (b.size - 16) =
            { (mm_malloc hp (max 32 (align (n + 16))) ok).2 with blocks := preq ++
                { bq0 with data := b.data ++ bq0.data.drop (b.size - 16) } :: postq } := by
          simp only [memcpyPayload, hlocq, hdataP, htake]
        have hq2 : blockAtL (memcpyPayload (mm_malloc hp (max 32 (align (n + 16))) ok).2 q p
            (b.size - 16)).blocks q =
            some { bq0 with data := b.data ++ bq0.data.drop (b.size - 16) } := by
          rw [hcpy]
          show blockAtL (preq ++ _ :: postq) q = _
          rw [haddrq]
          exact blockAtL_append_at preq hpreq _ postq
        have hps2 : ∀ x ∈ (memcpyPayload (mm_malloc hp (max 32 (align (n + 16))) ok).2 q p
            (b.size - 16)).blocks, 0 < x.size := by
          rw [hcpy]
          intro x hx
          rcases List.mem_append.mp hx with hx | hx
          · exact hpreq x hx
          · rcases List.mem_cons.mp hx with rfl | hx'
            · show 0 < bq0.size
              exact hposR bq0 (by rw [hblocksq]; simp)
            · exact hpostq x hx'
        have hfinal := mm_free_preserves hps2 hq2 hbq0u hqp
        have hda : dataAt h' q = b.data ++ bq0.data.drop (b.size - 16) := by
          rw [← h2]
          show ((blockAtL (mm_free (memcpyPayload
              (mm_malloc hp (max 32 (align (n + 16))) ok).2 q p (b.size - 16))
              (some p)).blocks q).map Block.data).getD [] = _
          rw [hfinal]
          rfl
        rw [hda]
        exact List.take_left' hlen

/-- A used 32-byte block with a distinctive 16-byte payload. -/
def c3Block : Block :=
  { size := 32, used := true, fsize := 32, fused := true,
    data := [1, 2, 3, 4, 5, 6, 7, 8, 9, 10, 11, 12, 13, 14, 15, 16] }

/-- A heap holding only `c3Block` and empty free lists: growing it forces
the allocate–copy–free fallback of `mm_realloc`. -/
def c3Heap : Heap :=
  { blocks := [c3Block], table := List.replicate 20 [], endHeap := 0 }

/-- The heap after `resize(0, 100)` on `c3Heap`. -/
def c3HeapAfter : Heap := (mm_realloc c3Heap (some 0) 100 true).2

theorem c3_payload_preserved_witness :
    Wf c3Heap ∧ blockAt c3Heap 0 = some c3Block ∧ c3Block.used = true ∧
    c3Block.size - 16 ≤ 100 ∧
    mm_realloc c3Heap (some 0) 100 true = (some 32, c3HeapAfter) ∧
    (dataAt c3HeapAfter 32).take (c3Block.size - 16) = c3Block.data :=
  ⟨by decide, by decide, by decide, by decide, by decide,
   @c3_payload_preserved c3Heap 0 100 true c3Block (by decide) (by decide) (by decide)
     (by decide) 32 c3HeapAfter (by decide)⟩
